import Mathlib

/-!
Verification of the holdem-calculator hand representation and evaluator.

The development shallowly embeds the 64-bit packed hand representation
(`Hand2` in trunk/src/hand.h, `Hand` in the later hand.cpp), the card
parser (`Card::Card(char, char)`), the bit-trick evaluator
(`EvaluateHand2` in src/src/hand.cpp lines 367-496 and the earlier
`EvaluateHand` variant in the unnamed hand.cpp, lines 70-222), and the
superseded 5-card reference classifier (`normalize_hand`,
src/src/hand.cpp lines 44-94).

Machine integers are modelled as `Nat` with explicit reductions
`% 2 ^ 64`, `% 2 ^ 32` and `% 2 ^ 16` exactly where the C++ types
(uint64_t, uint32_t/int, uint16_t RankMask) truncate.  The x86
`bit_scan_reverse` intrinsic equals `Nat.log2` on every nonzero
argument and is undefined on 0; definitions that can reach
`bit_scan_reverse(0)` take the interpretation of the intrinsic as an
explicit function parameter `bsr`, so that theorems can quantify over
every interpretation agreeing with `Nat.log2` on nonzero inputs.
-/

namespace Holdem

/-- Model of `struct Card` (trunk/src/hand.h lines 35-42): a rank
(0 = duce .. 12 = ace) and a suit (0 = club, 1 = diamond, 2 = heart,
3 = spade).  The C++ enums are modelled as plain naturals. -/
structure Card where
  rank : Nat
  suit : Nat
deriving DecidableEq, Repr

/-- A card is well formed when its rank and suit lie in the enum ranges. -/
def validCard (c : Card) : Prop := c.rank < 13 ∧ c.suit < 4

instance (c : Card) : Decidable (validCard c) := by
  unfold validCard; infer_instance

/-- Hand category constants, `enum HandCategory` (trunk/src/hand.h lines 45-56). -/
def HighCard : Nat := 0

/-- One pair category constant. -/
def OnePair : Nat := 1

/-- Two pair category constant. -/
def TwoPair : Nat := 2

/-- Three of a kind category constant. -/
def ThreeOfAKind : Nat := 3

/-- Straight category constant. -/
def Straight : Nat := 4

/-- Flush category constant. -/
def Flush : Nat := 5

/-- Full house category constant. -/
def FullHouse : Nat := 6

/-- Four of a kind category constant. -/
def FourOfAKind : Nat := 7

/-- Straight flush category constant. -/
def StraightFlush : Nat := 8

/-- The packed 64-bit contribution of a single card,
`Hand2(const Card&) : value((0x2000ULL | (1ULL << card.rank)) << (card.suit * 16))`
(trunk/src/hand.h lines 196-197). -/
def cardVal (c : Card) : Nat := ((0x2000 ||| (1 <<< c.rank)) <<< (16 * c.suit)) % 2 ^ 64

/-- Model of `Hand2::Hand2(const Card *cards, size_t num_cards)`
(trunk/src/hand.h lines 198-202): fold the cards into the packed
uint64 by addition. -/
def hand2OfCards (cs : List Card) : Nat :=
  cs.foldl (fun v c => (v + cardVal c) % 2 ^ 64) 0

/-- Model of `operator+ (const Hand &a, const Hand &b)` /
`Hand2::operator+=` (uint64 addition of the packed values,
src/src/hand.cpp third part lines 1006-1009, trunk/src/hand.h
lines 213-217). -/
def combineHands (a b : Nat) : Nat := (a + b) % 2 ^ 64

/-- Model of the strength triple built by the `HandStrength`
constructor calls inside the evaluators: the category together with
the master and kicker rank masks passed at each `return` site
(trunk/src/hand.h lines 273-281).  The packed 30-bit integer is
recovered by `strengthValue`. -/
structure Strength where
  category : Nat
  master : Nat
  kicker : Nat
deriving DecidableEq, Repr

/-- The packed value `(category << 26) | (master << 13) | kicker`
stored in the uint32 `HandStrength::value` (trunk/src/hand.h
lines 277-280). -/
def strengthValue (s : Strength) : Nat :=
  ((s.category <<< 26) ||| (s.master <<< 13) ||| s.kicker) % 2 ^ 32

/-- Fuel-based binary logarithm, structurally recursive so that the
kernel can evaluate it on concrete inputs. -/
def bsrAux : Nat → Nat → Nat
  | 0, _ => 0
  | f + 1, n => if n ≥ 2 then bsrAux f (n / 2) + 1 else 0

/-- Model of `intrinsic::bit_scan_reverse` on uint64 values: the index
of the highest set bit, i.e. the binary logarithm, computed with 64
halving steps (enough for any uint64).  The C++ intrinsic is undefined
on 0; this model returns 0 there, and theorems about executions that
can reach `bit_scan_reverse(0)` quantify over every interpretation
that agrees with this one on nonzero arguments. -/
def bit_scan_reverse (n : Nat) : Nat := bsrAux 64 n



/-- Loop body of `KeepHighestBitsSet<N>(RankMask x)` (src/src/hand.cpp
lines 222-234), parameterised by the interpretation `bsr` of
`intrinsic::bit_scan_reverse`.  Each iteration sets bit `bsr x` in the
uint16 accumulator and clears the accumulated bits from `x`
(`x &= ~result` at int width, then truncation to the uint16 `x`). -/
def keepHighestAux (bsr : Nat → Nat) : Nat → Nat → Nat → Nat
  | 0, _, result => result
  | n + 1, x, result =>
    let b := bsr x
    let result := (result ||| (1 <<< b)) % 2 ^ 16
    let x := x &&& (0xFFFFFFFF ^^^ result)
    keepHighestAux bsr n x result

/-- Model of `KeepHighestBitsSet<N>(RankMask x)` with the
`bit_scan_reverse` interpretation as a parameter. -/
def KeepHighestBitsSetB (bsr : Nat → Nat) (N x : Nat) : Nat :=
  keepHighestAux bsr N x 0

/-- Model of `KeepHighestBitsSet<N>(RankMask x)` (src/src/hand.cpp
lines 222-234) with the `bit_scan_reverse` model above. -/
def KeepHighestBitsSet (N x : Nat) : Nat := KeepHighestBitsSetB bit_scan_reverse N x

/-- Model of `KeepHighestBitSet(RankMask x) = KeepHighestBitsSet<1>(x)`
(src/src/hand.cpp lines 244-247). -/
def KeepHighestBitSet (x : Nat) : Nat := KeepHighestBitsSet 1 x

/-- The layered rank-mask extraction of `EvaluateHand2`
(src/src/hand.cpp lines 369-392), identical text in the unnamed
hand.cpp variant (`EvaluateHand`, lines 72-100): from the four 16-bit
per-suit rank masks of `v = value & 0x1FFF1FFF1FFF1FFF` compute the
masks of ranks present at least once, twice, three and four times.
Returns `(ranks_present, ranks_2_times, ranks_3_times, ranks_4_times)`. -/
def rankMasks (value : Nat) : Nat × Nat × Nat × Nat :=
  let v := value &&& 0x1FFF1FFF1FFF1FFF
  let m := v % 2 ^ 16
  let ranks_present := m
  let m := (v >>> 16) % 2 ^ 16
  let ranks_2_times := ranks_present &&& m
  let ranks_present := ranks_present ||| m
  let m := (v >>> 32) % 2 ^ 16
  let ranks_3_times := ranks_2_times &&& m
  let ranks_2_times := ranks_2_times ||| (ranks_present &&& m)
  let ranks_present := ranks_present ||| m
  let m := (v >>> 48) % 2 ^ 16
  let ranks_4_times := ranks_3_times &&& m
  let ranks_3_times := ranks_3_times ||| (ranks_2_times &&& m)
  let ranks_2_times := ranks_2_times ||| (ranks_present &&& m)
  let ranks_present := ranks_present ||| m
  (ranks_present, ranks_2_times, ranks_3_times, ranks_4_times)

/-- The flushed-suit rank-mask extraction of `EvaluateHand2`
(src/src/hand.cpp lines 394-408): the suit counters are tested for a
count in [5,7] (`sc &= ((sc << 1) | (sc << 2)) & 0x8000...`), and on
success `bit_scan_reverse` is applied to the FILTERED test result, so
the flushed suit itself is selected. -/
def ev2FlushMask (value : Nat) : Nat :=
  let v := value &&& 0x1FFF1FFF1FFF1FFF
  let sc := value &&& 0xE000E000E000E000
  let sc := sc &&& ((((sc <<< 1) % 2 ^ 64) ||| ((sc <<< 2) % 2 ^ 64)) &&&
    0x8000800080008000)
  if sc ≠ 0 then (v >>> (16 * (bit_scan_reverse sc / 16))) % 2 ^ 16 else 0

/-- The flushed-suit rank-mask extraction of the earlier `EvaluateHand`
(unnamed hand.cpp, lines 102-115): the flush test is computed into a
separate variable `test`, but on success `bit_scan_reverse` is applied
to the UNFILTERED suit counters `sc`, so the highest-indexed suit
holding any card is selected instead of the flushed suit. -/
def p0FlushMask (bsr : Nat → Nat) (value : Nat) : Nat :=
  let v := value &&& 0x1FFF1FFF1FFF1FFF
  let sc := value &&& 0xE000E000E000E000
  let test := sc &&& ((((sc <<< 1) % 2 ^ 64) ||| ((sc <<< 2) % 2 ^ 64)) &&&
    0x8000800080008000)
  if test ≠ 0 then (v >>> (16 * (bsr sc / 16))) % 2 ^ 16 else 0

/-- The card count computed by the earlier `EvaluateHand` (unnamed
hand.cpp, line 77): `((sc >> 13) + (sc >> 29) + (sc >> 45) + (sc >> 61)) & 7`. -/
def p0NumCards (value : Nat) : Nat :=
  let sc := value &&& 0xE000E000E000E000
  ((sc >>> 13) + (sc >>> 29) + (sc >>> 45) + (sc >>> 61)) &&& 7

/-- The asserted precondition of the earlier `EvaluateHand` (unnamed
hand.cpp, line 78): `assert(num_cards == 5 || num_cards == 7)`. -/
def p0AssertOk (value : Nat) : Prop :=
  p0NumCards value = 5 ∨ p0NumCards value = 7

instance (value : Nat) : Decidable (p0AssertOk value) := by
  unfold p0AssertOk; infer_instance

/-- The straight-detection pattern used for both plain and flush
straights (src/src/hand.cpp lines 417-418 and 458-459, likewise in the
unnamed hand.cpp lines 124-125 and 165-166): duplicate the ace bit
below the duce bit, then AND the five shifts 0..4 and shift back;
all intermediates are computed at int width and the result is
truncated to the uint16 `RankMask`. -/
def straightMask (x : Nat) : Nat :=
  let m := ((x <<< 1) ||| (x >>> 12)) % 2 ^ 16
  ((m &&& (m <<< 1) &&& (m <<< 2) &&& (m <<< 3) &&& (m <<< 4)) >>> 1) % 2 ^ 16

/-- Clear from `x` the bits of `m`: the C++ `x & ~m` with the
complement taken at int width. -/
def clearBits (x m : Nat) : Nat := x &&& (0xFFFFFFFF ^^^ m)

/-- Model of `EvaluateHand2` (src/src/hand.cpp lines 367-496): the
category tests in source order, each returning the `HandStrength`
triple of its return site. -/
def EvaluateHand2 (value : Nat) : Strength :=
  let masks := rankMasks value
  let ranks_present := masks.1
  let ranks_2_times := masks.2.1
  let ranks_3_times := masks.2.2.1
  let ranks_4_times := masks.2.2.2
  let ranks_flushed := ev2FlushMask value
  if ranks_flushed ≠ 0 ∧ straightMask ranks_flushed ≠ 0 then
    ⟨StraightFlush, KeepHighestBitSet (straightMask ranks_flushed), 0⟩
  else if ranks_4_times ≠ 0 then
    ⟨FourOfAKind, ranks_4_times, KeepHighestBitSet (clearBits ranks_present ranks_4_times)⟩
  else if ranks_3_times ≠ 0 ∧ clearBits ranks_2_times (KeepHighestBitSet ranks_3_times) ≠ 0 then
    ⟨FullHouse, KeepHighestBitSet ranks_3_times,
      KeepHighestBitSet (clearBits ranks_2_times (KeepHighestBitSet ranks_3_times))⟩
  else if ranks_flushed ≠ 0 then
    ⟨Flush, KeepHighestBitsSet 5 ranks_flushed, 0⟩
  else if straightMask ranks_present ≠ 0 then
    ⟨Straight, KeepHighestBitSet (straightMask ranks_present), 0⟩
  else if ranks_3_times ≠ 0 then
    ⟨ThreeOfAKind, ranks_3_times, KeepHighestBitsSet 2 (clearBits ranks_present ranks_3_times)⟩
  else if ranks_2_times ≠ 0 then
    let master := KeepHighestBitSet ranks_2_times
    let rest := clearBits ranks_2_times master
    if rest ≠ 0 then
      let master := master ||| KeepHighestBitSet rest
      ⟨TwoPair, master, KeepHighestBitSet (clearBits ranks_present master)⟩
    else
      ⟨OnePair, master, KeepHighestBitsSet 3 (clearBits ranks_present master)⟩
  else
    ⟨HighCard, KeepHighestBitsSet 5 ranks_present, 0⟩

/-- Model of the earlier `EvaluateHand` (unnamed hand.cpp,
lines 70-222), parameterised by the interpretation `bsr` of
`intrinsic::bit_scan_reverse`.  It differs from `EvaluateHand2` in the
flushed-suit extraction (`p0FlushMask`, which scans the unfiltered
suit counters) and in the one-pair / high-card kicker trimming, which
keeps the raw remainder mask and clears its two lowest bits
(`kicker &= kicker - 1` twice) exactly when the card count is 7. -/
def EvaluateHand (bsr : Nat → Nat) (value : Nat) : Strength :=
  let num_cards := p0NumCards value
  let masks := rankMasks value
  let ranks_present := masks.1
  let ranks_2_times := masks.2.1
  let ranks_3_times := masks.2.2.1
  let ranks_4_times := masks.2.2.2
  let ranks_flushed := p0FlushMask bsr value
  if ranks_flushed ≠ 0 ∧ straightMask ranks_flushed ≠ 0 then
    ⟨StraightFlush, KeepHighestBitsSetB bsr 1 (straightMask ranks_flushed), 0⟩
  else if ranks_4_times ≠ 0 then
    ⟨FourOfAKind, ranks_4_times, KeepHighestBitsSetB bsr 1 (clearBits ranks_present ranks_4_times)⟩
  else if ranks_3_times ≠ 0 ∧ clearBits ranks_2_times (KeepHighestBitsSetB bsr 1 ranks_3_times) ≠ 0 then
    ⟨FullHouse, KeepHighestBitsSetB bsr 1 ranks_3_times,
      KeepHighestBitsSetB bsr 1 (clearBits ranks_2_times (KeepHighestBitsSetB bsr 1 ranks_3_times))⟩
  else if ranks_flushed ≠ 0 then
    ⟨Flush, KeepHighestBitsSetB bsr 5 ranks_flushed, 0⟩
  else if straightMask ranks_present ≠ 0 then
    ⟨Straight, KeepHighestBitsSetB bsr 1 (straightMask ranks_present), 0⟩
  else if ranks_3_times ≠ 0 then
    ⟨ThreeOfAKind, ranks_3_times, KeepHighestBitsSetB bsr 2 (clearBits ranks_present ranks_3_times)⟩
  else if ranks_2_times ≠ 0 then
    let master := KeepHighestBitsSetB bsr 1 ranks_2_times
    let rest := clearBits ranks_2_times master
    if rest ≠ 0 then
      let master := master ||| KeepHighestBitsSetB bsr 1 rest
      ⟨TwoPair, master, KeepHighestBitsSetB bsr 1 (clearBits ranks_present master)⟩
    else
      let kicker := clearBits ranks_present master
      let kicker := if num_cards = 7 then
        let kicker := kicker &&& (kicker - 1)
        kicker &&& (kicker - 1)
      else kicker
      ⟨OnePair, master, kicker⟩
  else
    let kicker := ranks_present
    let kicker := if num_cards = 7 then
      let kicker := kicker &&& (kicker - 1)
      kicker &&& (kicker - 1)
    else kicker
    ⟨HighCard, kicker, 0⟩

/-- Insertion of a card into a sorted list under the comparator `le`:
auxiliary for the kernel-reducible sort below. -/
def insertLe (le : Card → Card → Bool) (c : Card) : List Card → List Card
  | [] => [c]
  | d :: ds => if le c d then c :: d :: ds else d :: insertLe le c ds

/-- Kernel-reducible insertion sort used to model `std::sort` in
`normalize_hand`.  The source comparator is a strict weak order whose
only ties are between cards of equal rank, and no classification
below depends on the order of equal-rank cards. -/
def sortLe (le : Card → Card → Bool) : List Card → List Card
  | [] => []
  | c :: cs => insertLe le c (sortLe le cs)

/-- Model of the superseded reference classifier
`normalize_hand(card_t cards[5])` (src/src/hand.cpp lines 44-94): count
rank occurrences, sort the five cards by (count, rank) descending, test
flush and straight (with the wheel special case and the wheel
rotation), then classify by comparing ranks of the sorted positions.
`std::sort`'s strict comparator is rendered as the corresponding
total `le` test for the insertion sort `sortLe`; ties only occur
between cards of equal rank, whose order does not affect the
result. -/
def normalize_hand (cards : List Card) : Nat :=
  let count := fun r => cards.countP (fun c => c.rank == r)
  let max_count := cards.foldl (fun m c => max m (count c.rank)) 0
  let sorted := sortLe (fun a b =>
    (count b.rank < count a.rank) || (count a.rank == count b.rank && b.rank ≤ a.rank)) cards
  let r := fun i => (sorted.getD i ⟨0, 0⟩).rank
  let is_flush := (sorted.drop 1).all (fun c => c.suit == (sorted.getD 0 ⟨0, 0⟩).suit)
  let is_straight := max_count == 1 &&
    ((r 0 == r 4 + 4) || (r 0 == 12 && r 1 == 3 && r 4 == 0))
  let sorted := if is_straight && r 0 == 12 then sorted.drop 1 ++ sorted.take 1 else sorted
  let r := fun i => (sorted.getD i ⟨0, 0⟩).rank
  if is_flush && is_straight then StraightFlush
  else if r 0 == r 3 then FourOfAKind
  else if r 0 == r 2 && r 3 == r 4 then FullHouse
  else if is_flush then Flush
  else if is_straight then Straight
  else if r 0 == r 2 then ThreeOfAKind
  else if r 0 == r 1 && r 2 == r 3 then TwoPair
  else if r 0 == r 1 then OnePair
  else HighCard

/-- Brute-force reference: the best category over every 5-card subset
of the hand, each subset scored by `normalize_hand`. -/
def bruteBestCategory (cards : List Card) : Nat :=
  ((cards.sublistsLen 5).map normalize_hand).foldl max 0

/-- The rank alphabet `rank_s` (unnamed hand.cpp line 8). -/
def rank_s : List Char := ['2', '3', '4', '5', '6', '7', '8', '9', 'T', 'J', 'Q', 'K', 'A']

/-- The first four entries of the suit alphabet `suit_s`
(unnamed hand.cpp line 9), the range searched by the parser. -/
def suit_s4 : List Char := ['C', 'D', 'H', 'S']

/-- Model of `std::toupper` on the ASCII characters fed to the parser. -/
def toUpperC (c : Char) : Char :=
  if 'a' ≤ c ∧ c ≤ 'z' then Char.ofNat (c.toNat - 32) else c

/-- Model of the parsing constructor `Card::Card(char, char)` (unnamed
hand.cpp lines 11-18, identical in src/src/hand.cpp lines 169-176):
`r` is the index of the uppercased rank character in `rank_s` (13 when
absent), `s` the index of the uppercased suit character in the first
four entries of `suit_s` (4 when absent); the assertion
`assert(r < 13 && s < 8)` is modelled as returning `none` when it
fails, and on success the card is `(r, s % 4)`. -/
def Card.fromChars (rankChar suitChar : Char) : Option Card :=
  let r := rank_s.findIdx (· = toUpperC rankChar)
  let s := suit_s4.findIdx (· = toUpperC suitChar)
  if r < 13 ∧ s < 8 then some ⟨r, s % 4⟩ else none

/-- The natural number whose set bits are exactly the members of `S`. -/
def bitSum (S : Finset Nat) : Nat := S.sum (fun i => 2 ^ i)

/-- Specification function: the (at most) `k` largest elements of `S` — the
elements with fewer than `k` strictly larger elements of `S`. -/
def topBits (k : Nat) (S : Finset Nat) : Finset Nat :=
  S.filter (fun r => (S.filter (fun s => r < s)).card < k)

/-- The number of cards of suit `s` in the list. -/
def suitCount (cs : List Card) (s : Nat) : Nat := cs.countP (fun c => c.suit == s)

/-- The number of cards of rank `r` in the list. -/
def rankCount (cs : List Card) (r : Nat) : Nat := cs.countP (fun c => c.rank == r)

/-- The set of ranks held in suit `s`. -/
def suitRanks (cs : List Card) (s : Nat) : Finset Nat :=
  (Finset.range 13).filter (fun r => Card.mk r s ∈ cs)

/-- The set of ranks that appear at least `k` times in the hand. -/
def ranksAtLeast (cs : List Card) (k : Nat) : Finset Nat :=
  (Finset.range 13).filter (fun r => k ≤ rankCount cs r)

/-- The 16-bit lane of suit `s` in the packed `Hand2` value: the 3-bit card
count above the 13-bit rank-presence mask. -/
def laneOf (cs : List Card) (s : Nat) : Nat :=
  2 ^ 13 * suitCount cs s + bitSum (suitRanks cs s)

/-- Fuel-based bit population count (64 halving steps, enough for any
uint64 value). -/
def popcountAux : Nat → Nat → Nat
  | 0, _ => 0
  | f + 1, x => popcountAux f (x / 2) + x % 2

/-- The number of set bits of a uint64 value. -/
def popcount (x : Nat) : Nat := popcountAux 64 x

/-- Loop of `Hand::GetCards` (unnamed hand.cpp lines 32-45),
parameterised by the `bit_scan_reverse` interpretation and a fuel
bound: while `v` is nonzero, extract the highest set bit `b`, emit the
card of suit `b / 16` and rank `b % 16`, and clear the bit
(`v &= ~(1ULL << b)` at uint64 width).  52 steps of fuel are enough
for every value the masked loop variable can take. -/
def getCardsAux (bsr : Nat → Nat) : Nat → Nat → List Card
  | 0, _ => []
  | f + 1, v =>
    if v ≠ 0 then
      let b := bsr v
      Card.mk (b % 16) (b / 16) ::
        getCardsAux bsr f (v &&& (0xFFFFFFFFFFFFFFFF ^^^ ((1 <<< b) % 2 ^ 64)))
    else []

/-- Model of `Hand::GetCards` (unnamed hand.cpp lines 32-45): scan the
rank-mask bits of `value & 0x1FFF1FFF1FFF1FFF` from the highest down,
emitting one card per set bit. -/
def GetCards (value : Nat) : List Card :=
  getCardsAux bit_scan_reverse 52 (value &&& 0x1FFF1FFF1FFF1FFF)

/-- Specification predicate for C5: the rank mask `x` contains a
straight whose top card has rank index `t` — for `t ≥ 4` the five
consecutive ranks `t-4 .. t`, and for `t = 3` the wheel A-2-3-4-5
(rank indices 12, 0, 1, 2, 3, top card the 5, index 3). -/
def straightAt (x t : Nat) : Bool :=
  if 4 ≤ t then
    x.testBit t && x.testBit (t - 1) && x.testBit (t - 2) &&
      x.testBit (t - 3) && x.testBit (t - 4)
  else if t = 3 then
    x.testBit 3 && x.testBit 2 && x.testBit 1 && x.testBit 0 && x.testBit 12
  else false

/-- Specification function for C5: the top rank index of the strongest
straight contained in the rank mask `x` (`none` when `x` contains no
straight); the wheel (top index 3) is the weakest straight. -/
def straightTop (x : Nat) : Option Nat :=
  if straightAt x 12 then some 12
  else if straightAt x 11 then some 11
  else if straightAt x 10 then some 10
  else if straightAt x 9 then some 9
  else if straightAt x 8 then some 8
  else if straightAt x 7 then some 7
  else if straightAt x 6 then some 6
  else if straightAt x 5 then some 5
  else if straightAt x 4 then some 4
  else if straightAt x 3 then some 3
  else none

/-- A 7-card hand holding the straight flush 9C TC JC QC KC together
with 2S and 7S. -/
def sfPlusSpades : List Card := [⟨7, 0⟩, ⟨8, 0⟩, ⟨9, 0⟩, ⟨10, 0⟩, ⟨11, 0⟩, ⟨0, 3⟩, ⟨5, 3⟩]

/-- A 7-card hand holding the club flush 2C 4C 6C 8C TC together with
KS and AS. -/
def clubFlushSpades : List Card := [⟨0, 0⟩, ⟨2, 0⟩, ⟨4, 0⟩, ⟨6, 0⟩, ⟨8, 0⟩, ⟨11, 3⟩, ⟨12, 3⟩]

/-- A well-formed 6-card hand: 2C 3D 4H 5S 6C 7D. -/
def sixCardHand : List Card := [⟨0, 0⟩, ⟨1, 1⟩, ⟨2, 2⟩, ⟨3, 3⟩, ⟨4, 0⟩, ⟨5, 1⟩]

/-- The spec's example 7-card hand {2C, 3D, 4H, 5S, 6C, 9C, 9D}: a
6-high straight containing a pair of nines. -/
def straightWithPair : List Card := [⟨0, 0⟩, ⟨1, 1⟩, ⟨2, 2⟩, ⟨3, 3⟩, ⟨4, 0⟩, ⟨7, 0⟩, ⟨7, 1⟩]



/-- The 5-card one-pair hand 2C 2D 5H 8S KC used as the C7 witness
input. -/
def pairHand : List Card := [⟨0, 0⟩, ⟨0, 1⟩, ⟨3, 2⟩, ⟨6, 3⟩, ⟨11, 0⟩]

/-- Bit position of a card inside the masked packed value
(`16*suit + rank`), as scanned by `Hand::GetCards`. -/
def cardPos (c : Card) : Nat := 16 * c.suit + c.rank

/-- Auxiliary: the fuel-based logarithm agrees with `Nat.log2` below
its fuel bound. -/
theorem bsrAux_eq_log2 : ∀ f n : Nat, n < 2 ^ f → bsrAux f n = Nat.log2 n := by
  intro f
  induction f with
  | zero =>
    intro n h
    have : n = 0 := by omega
    subst this
    rw [Nat.log2]
    decide
  | succ f ih =>
    intro n h
    rw [Nat.log2, bsrAux]
    by_cases h2 : n ≥ 2
    · rw [if_pos h2, if_pos h2, ih (n / 2) (by omega)]
    · rw [if_neg h2, if_neg h2]

/-- The `bit_scan_reverse` model is the binary logarithm on every
uint64 value. -/
theorem bit_scan_reverse_eq_log2 (n : Nat) (h : n < 2 ^ 64) :
    bit_scan_reverse n = Nat.log2 n :=
  bsrAux_eq_log2 64 n h

/-- Auxiliary: the foldl in `hand2OfCards` computes the sum of the
per-card packed values reduced mod 2^64. -/
theorem hand2OfCards_eq_sum (cs : List Card) :
    hand2OfCards cs = (cs.map cardVal).sum % 2 ^ 64 := by
  have key : ∀ (cs : List Card) (v : Nat),
      cs.foldl (fun v c => (v + cardVal c) % 2 ^ 64) (v % 2 ^ 64) =
        (v + (cs.map cardVal).sum) % 2 ^ 64 := by
    intro cs
    induction cs with
    | nil => intro v; simp
    | cons c cs ih =>
      intro v
      simp only [List.foldl_cons, List.map_cons, List.sum_cons]
      rw [Nat.mod_add_mod, ih (v + cardVal c), Nat.add_assoc]
  have h0 : (0 : Nat) = 0 % 2 ^ 64 := rfl
  calc hand2OfCards cs = cs.foldl (fun v c => (v + cardVal c) % 2 ^ 64) (0 % 2 ^ 64) := by
        rw [hand2OfCards, ← h0]
    _ = (0 + (cs.map cardVal).sum) % 2 ^ 64 := key cs 0
    _ = (cs.map cardVal).sum % 2 ^ 64 := by rw [Nat.zero_add]

/-- C1.  The claim that `EvaluateHand` (unnamed hand.cpp lines 70-222)
and `EvaluateHand2` both agree with the brute-force best-5-card-subset
reference fails for `EvaluateHand`: on the 7-card hand
9C TC JC QC KC 2S 7S the reference's best subset is the straight flush
(category 8), and `EvaluateHand2` finds it, but `EvaluateHand`
classifies the hand as a mere Flush (category 5) for every
interpretation of `bit_scan_reverse` agreeing with the
highest-set-bit function on nonzero arguments, because its
flushed-suit extraction scans the
unfiltered suit counters and therefore reads the spade rank mask
{2, 7}, in which it finds no straight. -/
theorem evaluateHand_misses_straight_flush :
    ∀ bsr : Nat → Nat, (∀ n, n ≠ 0 → bsr n = bit_scan_reverse n) →
      (EvaluateHand bsr (hand2OfCards sfPlusSpades)).category = Flush ∧
      bruteBestCategory sfPlusSpades = StraightFlush ∧
      (EvaluateHand2 (hand2OfCards sfPlusSpades)).category = StraightFlush := by
  intro bsr hbsr
  have hv : hand2OfCards sfPlusSpades = 4620974692658884480 := by decide
  have hflush : p0FlushMask bsr 4620974692658884480 = 33 := by
    simp only [p0FlushMask]
    rw [show (4620974692658884480 &&& 0xE000E000E000E000) = 4611686018427428864 from by decide,
      hbsr 4611686018427428864 (by decide)]
    decide
  refine ⟨?_, by decide, by decide⟩
  rw [hv]
  simp only [EvaluateHand]
  rw [hflush]
  rw [if_neg (by decide), if_neg (by decide),
    if_neg (fun h => absurd h.1 (by decide)), if_pos (by decide)]

/-- Closed witness for the counterexample theorem of C1, instantiating
the `bit_scan_reverse` interpretation with the model itself. -/
theorem evaluateHand_misses_straight_flush_witness :
    (EvaluateHand bit_scan_reverse (hand2OfCards sfPlusSpades)).category = Flush ∧
      bruteBestCategory sfPlusSpades = StraightFlush ∧
      (EvaluateHand2 (hand2OfCards sfPlusSpades)).category = StraightFlush :=
  evaluateHand_misses_straight_flush bit_scan_reverse (fun _ _ => rfl)

/-- C2.  On the 7-card hand 2C 4C 6C 8C TC KS AS, clubs is the unique
suit with count in [5, 7], yet the `ranks_flushed` computed by
`EvaluateHand`'s extraction (unnamed hand.cpp lines 102-115) is 6144,
the spade rank mask {K, A}, for every interpretation of the intrinsic
agreeing with the highest-set-bit function on nonzero arguments — not the
qualifying club mask 341 = {2, 4, 6, 8, T}, which `EvaluateHand2`'s
extraction (src/src/hand.cpp lines 394-408) returns. -/
theorem flushMask_reads_wrong_suit :
    ∀ bsr : Nat → Nat, (∀ n, n ≠ 0 → bsr n = bit_scan_reverse n) →
      clubFlushSpades.countP (fun c => c.suit == 0) = 5 ∧
      (∀ s, s < 4 → s ≠ 0 → clubFlushSpades.countP (fun c => c.suit == s) < 5) ∧
      p0FlushMask bsr (hand2OfCards clubFlushSpades) = 6144 ∧
      ev2FlushMask (hand2OfCards clubFlushSpades) = 341 := by
  intro bsr hbsr
  have hv : hand2OfCards clubFlushSpades = 6341068275337699669 := by decide
  refine ⟨by decide, by decide, ?_, by decide⟩
  rw [hv]
  simp only [p0FlushMask]
  rw [show (6341068275337699669 &&& 0xE000E000E000E000) = 4611686018427428864 from by decide,
    hbsr 4611686018427428864 (by decide)]
  decide

/-- Closed witness for the counterexample theorem of C2, instantiating
the `bit_scan_reverse` interpretation with the model itself. -/
theorem flushMask_reads_wrong_suit_witness :
    clubFlushSpades.countP (fun c => c.suit == 0) = 5 ∧
      (∀ s, s < 4 → s ≠ 0 → clubFlushSpades.countP (fun c => c.suit == s) < 5) ∧
      p0FlushMask bit_scan_reverse (hand2OfCards clubFlushSpades) = 6144 ∧
      ev2FlushMask (hand2OfCards clubFlushSpades) = 341 :=
  flushMask_reads_wrong_suit bit_scan_reverse (fun _ _ => rfl)

/-- C3.  The parser `Card::Card(char, char)` does not fail on every
invalid input: an unrecognized suit character leaves the find index at
4, which passes the (mistaken) assertion `s < 8` and is mapped by
`s % 4` to Clubs, silently producing a default suit — here parsing
rank '2' with the invalid suit 'X' yields the card 2C instead of
failing.  Invalid rank characters do fail, and valid inputs (case
insensitively) parse to the corresponding card. -/
theorem card_parse_invalid_suit_defaulted :
    Card.fromChars '2' 'X' = some ⟨0, 0⟩ ∧
      Card.fromChars 'z' 'C' = none ∧
      Card.fromChars 'a' 's' = some ⟨12, 3⟩ ∧
      Card.fromChars 'T' 'h' = some ⟨8, 2⟩ := by
  decide

/-- C4 counterexample.  A well-formed 6-card hand is not valid input
to `EvaluateHand` (unnamed hand.cpp): its card-count computation
yields 6 and the asserted precondition
`num_cards == 5 || num_cards == 7` fails. -/
theorem six_card_hand_fails_assert :
    sixCardHand.Nodup ∧ (∀ c ∈ sixCardHand, validCard c) ∧
      sixCardHand.length = 6 ∧
      p0NumCards (hand2OfCards sixCardHand) = 6 ∧
      ¬ p0AssertOk (hand2OfCards sixCardHand) := by
  decide

/-- C6.  The spec's example: on the 7-card hand 2C 3D 4H 5S 6C 9C 9D,
`EvaluateHand2` returns the Straight category with master the single
rank 6 (bit 4) and empty kicker, even though the pair of nines is
present (the ranks-paired mask is nonzero): the straight test precedes
the pair tests in the category chain and returns immediately. -/
theorem straight_beats_embedded_pair :
    EvaluateHand2 (hand2OfCards straightWithPair) = ⟨Straight, 16, 0⟩ ∧
      (rankMasks (hand2OfCards straightWithPair)).2.1 ≠ 0 := by
  decide

/-- C9.  Hand combination (uint64 addition of packed values) is
commutative and associative on hands built from pairwise-disjoint card
lists of at most 7 cards in total, and the combined hand equals the
hand built directly from the concatenation of the card lists. -/
theorem combine_comm_assoc_union (a b c : List Card)
    (hnd : (a ++ b ++ c).Nodup) (hlen : (a ++ b ++ c).length ≤ 7) :
    combineHands (hand2OfCards a) (hand2OfCards b) =
      combineHands (hand2OfCards b) (hand2OfCards a) ∧
    combineHands (combineHands (hand2OfCards a) (hand2OfCards b)) (hand2OfCards c) =
      combineHands (hand2OfCards a) (combineHands (hand2OfCards b) (hand2OfCards c)) ∧
    combineHands (hand2OfCards a) (hand2OfCards b) = hand2OfCards (a ++ b) ∧
    combineHands (combineHands (hand2OfCards a) (hand2OfCards b)) (hand2OfCards c) =
      hand2OfCards (a ++ b ++ c) := by
  simp only [combineHands, hand2OfCards_eq_sum, List.map_append, List.sum_append]
  refine ⟨?_, ?_, ?_, ?_⟩ <;> omega

/-- Closed witness for C9 at the concrete hands {2C}, {3D, 4H} and
{5S}. -/
theorem combine_comm_assoc_union_witness :
    (([⟨0, 0⟩] ++ [⟨1, 1⟩, ⟨2, 2⟩] ++ [⟨3, 3⟩] : List Card).Nodup ∧
      (([⟨0, 0⟩] ++ [⟨1, 1⟩, ⟨2, 2⟩] ++ [⟨3, 3⟩] : List Card)).length ≤ 7) ∧
    combineHands (hand2OfCards [⟨0, 0⟩]) (hand2OfCards [⟨1, 1⟩, ⟨2, 2⟩]) =
      hand2OfCards ([⟨0, 0⟩] ++ [⟨1, 1⟩, ⟨2, 2⟩]) :=
  ⟨⟨by decide, by decide⟩,
    (combine_comm_assoc_union [⟨0, 0⟩] [⟨1, 1⟩, ⟨2, 2⟩] [⟨3, 3⟩] (by decide) (by decide)).2.2.1⟩

/-- Auxiliary: every nonzero natural has its bit at index `log2` set. -/
theorem testBit_log2_self {x : Nat} (hx : x ≠ 0) : x.testBit x.log2 = true := by
  have h1 : 2 ^ x.log2 ≤ x := Nat.log2_self_le hx
  have h2 : x < 2 ^ (x.log2 + 1) := Nat.lt_log2_self
  have hpos : 0 < 2 ^ x.log2 := Nat.pos_pow_of_pos _ (by norm_num)
  rw [Nat.testBit_to_div_mod]
  have hge : 1 ≤ x / 2 ^ x.log2 := (Nat.le_div_iff_mul_le hpos).2 (by omega)
  have hlt : x / 2 ^ x.log2 < 2 := Nat.div_lt_of_lt_mul (by rw [pow_succ] at h2; omega)
  have hd : x / 2 ^ x.log2 = 1 := by omega
  simp [hd]

/-- Auxiliary: a natural with all bits at indices ≥ n clear is below 2 ^ n. -/
theorem lt_two_pow_of_high_bits_false {x n : Nat}
    (h : ∀ j, n ≤ j → x.testBit j = false) : x < 2 ^ n := by
  by_contra hc
  push_neg at hc
  have hx0 : x ≠ 0 := by
    have : 0 < 2 ^ n := Nat.pos_pow_of_pos _ (by norm_num)
    omega
  have hlog : n ≤ x.log2 := (Nat.le_log2 hx0).2 hc
  have hfalse := h x.log2 hlog
  rw [testBit_log2_self hx0] at hfalse
  simp at hfalse

/-- Auxiliary: bit `t` of the straight-detection pattern applied to a
13-bit rank mask is exactly the straight-at-top-`t` predicate. -/
theorem testBit_straightMask (x : Nat) (hx : x < 8192) (t : Nat) :
    (straightMask x).testBit t = straightAt x t := by
  have hbig : ∀ j, 13 ≤ j → x.testBit j = false := by
    intro j hj
    apply Nat.testBit_lt_two_pow
    calc x < 8192 := hx
      _ = 2 ^ 13 := by norm_num
      _ ≤ 2 ^ j := Nat.pow_le_pow_right (by norm_num) hj
  by_cases ht : t < 16
  · interval_cases t <;>
      simp [straightMask, straightAt, -Nat.reducePow, Nat.testBit_mod_two_pow, Nat.testBit_or,
        Nat.testBit_and, Nat.testBit_shiftLeft, Nat.testBit_shiftRight, hbig]
  · have h4 : 4 ≤ t := by omega
    simp [straightMask, straightAt, -Nat.reducePow, Nat.testBit_mod_two_pow, h4,
      hbig t (by omega), show ¬ t < 16 from ht]

/-- Auxiliary: no straight tops below index 3. -/
theorem straightAt_low (x : Nat) : ∀ t, t ≤ 2 → straightAt x t = false := by
  intro t ht
  interval_cases t <;> rfl

/-- Auxiliary: a 13-bit mask has no straight topped above index 12. -/
theorem straightAt_high (x : Nat) (hx : x < 8192) : ∀ t, 13 ≤ t → straightAt x t = false := by
  intro t ht
  have hbig : x.testBit t = false := by
    apply Nat.testBit_lt_two_pow
    calc x < 8192 := hx
      _ = 2 ^ 13 := by norm_num
      _ ≤ 2 ^ t := Nat.pow_le_pow_right (by norm_num) ht
  simp [straightAt, show 4 ≤ t by omega, hbig]

/-- Auxiliary: `straightTop` returns either `none` with no straight
present, or the largest straight top. -/
theorem straightTop_spec (x : Nat) :
    (straightTop x = none ∧ ∀ t, 3 ≤ t → t ≤ 12 → straightAt x t = false) ∨
    (∃ u, straightTop x = some u ∧ straightAt x u = true ∧ 3 ≤ u ∧ u ≤ 12 ∧
      ∀ t, u < t → t ≤ 12 → straightAt x t = false) := by
  by_cases h12 : straightAt x 12 = true
  · exact Or.inr ⟨12, by rw [straightTop, if_pos h12], h12, by omega, by omega,
      fun t h1 h2 => by omega⟩
  by_cases h11 : straightAt x 11 = true
  · exact Or.inr ⟨11, by rw [straightTop, if_neg h12, if_pos h11], h11, by omega, by omega,
      fun t h1 h2 => by interval_cases t <;> simp_all⟩
  by_cases h10 : straightAt x 10 = true
  · exact Or.inr ⟨10, by rw [straightTop, if_neg h12, if_neg h11, if_pos h10], h10, by omega,
      by omega, fun t h1 h2 => by interval_cases t <;> simp_all⟩
  by_cases h9 : straightAt x 9 = true
  · exact Or.inr ⟨9, by rw [straightTop, if_neg h12, if_neg h11, if_neg h10, if_pos h9], h9,
      by omega, by omega, fun t h1 h2 => by interval_cases t <;> simp_all⟩
  by_cases h8 : straightAt x 8 = true
  · exact Or.inr ⟨8, by rw [straightTop, if_neg h12, if_neg h11, if_neg h10, if_neg h9,
      if_pos h8], h8, by omega, by omega, fun t h1 h2 => by interval_cases t <;> simp_all⟩
  by_cases h7 : straightAt x 7 = true
  · exact Or.inr ⟨7, by rw [straightTop, if_neg h12, if_neg h11, if_neg h10, if_neg h9,
      if_neg h8, if_pos h7], h7, by omega, by omega,
      fun t h1 h2 => by interval_cases t <;> simp_all⟩
  by_cases h6 : straightAt x 6 = true
  · exact Or.inr ⟨6, by rw [straightTop, if_neg h12, if_neg h11, if_neg h10, if_neg h9,
      if_neg h8, if_neg h7, if_pos h6], h6, by omega, by omega,
      fun t h1 h2 => by interval_cases t <;> simp_all⟩
  by_cases h5 : straightAt x 5 = true
  · exact Or.inr ⟨5, by rw [straightTop, if_neg h12, if_neg h11, if_neg h10, if_neg h9,
      if_neg h8, if_neg h7, if_neg h6, if_pos h5], h5, by omega, by omega,
      fun t h1 h2 => by interval_cases t <;> simp_all⟩
  by_cases h4 : straightAt x 4 = true
  · exact Or.inr ⟨4, by rw [straightTop, if_neg h12, if_neg h11, if_neg h10, if_neg h9,
      if_neg h8, if_neg h7, if_neg h6, if_neg h5, if_pos h4], h4, by omega, by omega,
      fun t h1 h2 => by interval_cases t <;> simp_all⟩
  by_cases h3 : straightAt x 3 = true
  · exact Or.inr ⟨3, by rw [straightTop, if_neg h12, if_neg h11, if_neg h10, if_neg h9,
      if_neg h8, if_neg h7, if_neg h6, if_neg h5, if_neg h4, if_pos h3], h3, by omega, by omega,
      fun t h1 h2 => by interval_cases t <;> simp_all⟩
  refine Or.inl ⟨by rw [straightTop, if_neg h12, if_neg h11, if_neg h10, if_neg h9, if_neg h8,
    if_neg h7, if_neg h6, if_neg h5, if_neg h4, if_neg h3], fun t h1 h2 => ?_⟩
  interval_cases t <;> simp_all

/-- C5.  For every 13-bit rank mask, the straight-detection
computation (duplicate the ace bit below the duce bit, AND the five
shifts, shift back) is nonzero exactly when the mask contains five
consecutive ranks or the wheel A-2-3-4-5, and the highest set bit of
the result (as extracted by `bit_scan_reverse`) is the top rank index
of the strongest straight in the mask — index 3, the rank 5, for the
wheel.  The evaluators apply this same computation to both
`ranks_present` and `ranks_flushed`. -/
theorem straightMask_matches_straight_spec (x : Nat) (hx : x < 8192) :
    (straightMask x = 0 ↔ straightTop x = none) ∧
    (straightMask x ≠ 0 → straightTop x = some (bit_scan_reverse (straightMask x))) := by
  have hbit := testBit_straightMask x hx
  have hsmall : straightMask x < 2 ^ 16 := by
    rw [straightMask]
    exact Nat.mod_lt _ (by norm_num)
  have hlog2 : bit_scan_reverse (straightMask x) = (straightMask x).log2 :=
    bit_scan_reverse_eq_log2 _ (lt_trans hsmall (by norm_num))
  have hzero : (∀ t, 3 ≤ t → t ≤ 12 → straightAt x t = false) → straightMask x = 0 := by
    intro hall
    apply Nat.zero_of_testBit_eq_false
    intro i
    rw [hbit i]
    by_cases hi3 : 3 ≤ i
    · by_cases hi12 : i ≤ 12
      · exact hall i hi3 hi12
      · exact straightAt_high x hx i (by omega)
    · exact straightAt_low x i (by omega)
  constructor
  · constructor
    · intro h0
      rcases straightTop_spec x with ⟨hn, _⟩ | ⟨u, hs, hu, _, _, _⟩
      · exact hn
      · rw [← hbit u, h0, Nat.zero_testBit] at hu
        simp at hu
    · intro hn
      rcases straightTop_spec x with ⟨_, hall⟩ | ⟨u, hs, _, _, _, _⟩
      · exact hzero hall
      · rw [hn] at hs
        exact absurd hs (by simp)
  · intro hne
    have hstar : straightAt x ((straightMask x).log2) = true := by
      rw [← hbit]
      exact testBit_log2_self hne
    rcases straightTop_spec x with ⟨_, hall⟩ | ⟨u, hs, hu, hu3, hu12, hmax⟩
    · exact absurd (hzero hall) hne
    · have hle : (straightMask x).log2 ≤ 12 := by
        by_contra hc
        push_neg at hc
        rw [straightAt_high x hx _ (by omega)] at hstar
        simp at hstar
      have hueq : u = (straightMask x).log2 := by
        rcases Nat.lt_trichotomy u ((straightMask x).log2) with hlt | heq | hgt
        · rw [hmax _ hlt hle] at hstar
          simp at hstar
        · exact heq
        · have hfb : (straightMask x).testBit u = false :=
            Nat.testBit_lt_two_pow (lt_of_lt_of_le Nat.lt_log2_self
              (Nat.pow_le_pow_right (by norm_num) (by omega)))
          rw [hbit u, hu] at hfb
          simp at hfb
      rw [hs, hueq, hlog2]

/-- Closed witness for C5 at the mask {2, 3, 4, 5, 6} = 31, a 6-high
straight. -/
theorem straightMask_matches_straight_spec_witness :
    (31 : Nat) < 8192 ∧
      ((straightMask 31 = 0 ↔ straightTop 31 = none) ∧
        (straightMask 31 ≠ 0 → straightTop 31 = some (bit_scan_reverse (straightMask 31)))) :=
  ⟨by norm_num, straightMask_matches_straight_spec 31 (by norm_num)⟩


theorem sum_range_two_pow (n : Nat) : ∑ i in Finset.range n, 2 ^ i = 2 ^ n - 1 := by
  induction n with
  | zero => simp
  | succ n ih =>
    rw [Finset.sum_range_succ, ih, pow_succ]
    have : 0 < 2 ^ n := Nat.pos_pow_of_pos _ (by norm_num)
    omega

theorem bitSum_lt (S : Finset Nat) (n : Nat) (h : S ⊆ Finset.range n) : bitSum S < 2 ^ n := by
  have h1 : bitSum S ≤ ∑ i in Finset.range n, 2 ^ i :=
    Finset.sum_le_sum_of_subset h
  rw [sum_range_two_pow] at h1
  have : 0 < 2 ^ n := Nat.pos_pow_of_pos _ (by norm_num)
  omega

theorem bitSum_max_decomp (S : Finset Nat) (h : S.Nonempty) :
    bitSum S = 2 ^ (S.max' h) + bitSum (S.erase (S.max' h)) := by
  rw [bitSum, bitSum, ← Finset.add_sum_erase _ _ (S.max'_mem h)]

theorem erase_max_subset_range (S : Finset Nat) (h : S.Nonempty) :
    S.erase (S.max' h) ⊆ Finset.range (S.max' h) := by
  intro e he
  rw [Finset.mem_erase] at he
  rw [Finset.mem_range]
  exact lt_of_le_of_ne (S.le_max' e he.2) he.1

theorem testBit_bitSum (S : Finset Nat) (n : Nat) :
    (bitSum S).testBit n = decide (n ∈ S) := by
  have main : ∀ k (S : Finset Nat), S.card = k → (bitSum S).testBit n = decide (n ∈ S) := by
    intro k
    induction k with
    | zero =>
      intro S hc
      rw [Finset.card_eq_zero] at hc
      subst hc
      simp [bitSum]
    | succ k ih =>
      intro S hc
      have hne : S.Nonempty := by
        rw [← Finset.card_pos, hc]
        omega
      set M := S.max' hne with hM
      have hlt : bitSum (S.erase M) < 2 ^ M :=
        bitSum_lt _ _ (erase_max_subset_range S hne)
      rw [bitSum_max_decomp S hne, ← hM]
      have hor : 2 ^ M + bitSum (S.erase M) = 2 ^ M * 1 + bitSum (S.erase M) := by ring_nf
      rw [hor, Nat.mul_add_lt_is_or hlt, Nat.testBit_or, Nat.testBit_mul_pow_two,
        ih (S.erase M) (by rw [Finset.card_erase_of_mem (S.max'_mem hne), hc]; omega)]
      by_cases hnm : n = M
      · subst hnm
        simp [Finset.mem_erase, S.max'_mem hne]
      · by_cases hmem : n ∈ S
        · have hin : n ∈ S.erase M := Finset.mem_erase.2 ⟨hnm, hmem⟩
          simp [hin, hmem]
        · have hout : n ∉ S.erase M := fun hx => hmem (Finset.mem_of_mem_erase hx)
          rcases Nat.lt_or_ge n M with hlt2 | hge
          · simp [hout, hmem, show ¬ n ≥ M from by omega]
          · have hgt : M < n := lt_of_le_of_ne hge (fun he => hnm he.symm)
            rw [show (1 : Nat) = 2 ^ 0 from by norm_num, Nat.testBit_two_pow]
            simp [hout, hmem, show (0 : Nat) ≠ n - M from by omega]
  exact main S.card S rfl

theorem bitSum_eq_iff_of_subset {S T : Finset Nat} (h : ∀ n, (decide (n ∈ S) : Bool) = decide (n ∈ T)) : S = T := by
  ext n
  have := h n
  constructor
  · intro hm
    by_contra hnt
    simp [hm, hnt] at this
  · intro hm
    by_contra hnt
    simp [hm, hnt] at this

theorem lor_bitSum (A B : Finset Nat) : bitSum A ||| bitSum B = bitSum (A ∪ B) := by
  apply Nat.eq_of_testBit_eq
  intro i
  rw [Nat.testBit_or, testBit_bitSum, testBit_bitSum, testBit_bitSum]
  by_cases ha : i ∈ A <;> by_cases hb : i ∈ B <;> simp [ha, hb]

theorem land_bitSum (A B : Finset Nat) : bitSum A &&& bitSum B = bitSum (A ∩ B) := by
  apply Nat.eq_of_testBit_eq
  intro i
  rw [Nat.testBit_and, testBit_bitSum, testBit_bitSum, testBit_bitSum]
  by_cases ha : i ∈ A <;> by_cases hb : i ∈ B <;> simp [ha, hb]

theorem bitSum_zero_iff (S : Finset Nat) : bitSum S = 0 ↔ S = ∅ := by
  constructor
  · intro h
    ext i
    have := testBit_bitSum S i
    rw [h, Nat.zero_testBit] at this
    simp only [Finset.not_mem_empty, iff_false]
    intro hm
    simp [hm] at this
  · intro h
    subst h
    rfl

theorem clear_bitSum (S M : Finset Nat) (w : Nat) (hS : S ⊆ Finset.range w) :
    bitSum S &&& (2 ^ w - 1 ^^^ bitSum M) = bitSum (S \ M) := by
  apply Nat.eq_of_testBit_eq
  intro i
  rw [Nat.testBit_and, Nat.testBit_xor, Nat.testBit_two_pow_sub_one,
    testBit_bitSum, testBit_bitSum, testBit_bitSum]
  by_cases hi : i ∈ S
  · have hiw : i < w := Finset.mem_range.1 (hS hi)
    by_cases hm : i ∈ M <;> simp [hi, hm, hiw, Finset.mem_sdiff]
  · simp [hi, Finset.mem_sdiff]

theorem log2_bitSum (S : Finset Nat) (h : S.Nonempty) :
    Nat.log2 (bitSum S) = S.max' h := by
  have h1 : 2 ^ (S.max' h) ≤ bitSum S := by
    rw [bitSum]
    exact Finset.single_le_sum (fun i _ => Nat.zero_le _) (S.max'_mem h)
  have h2 : bitSum S < 2 ^ (S.max' h + 1) := by
    apply bitSum_lt
    intro e he
    rw [Finset.mem_range]
    exact Nat.lt_succ_of_le (S.le_max' e he)
  have hne : bitSum S ≠ 0 := by
    have : 0 < 2 ^ (S.max' h) := Nat.pos_pow_of_pos _ (by norm_num)
    omega
  have ha := (Nat.le_log2 hne).2 h1
  have hb := (Nat.log2_lt hne).2 h2
  omega

theorem bitSum_ne_zero (S : Finset Nat) (h : S.Nonempty) : bitSum S ≠ 0 := by
  rw [Ne, bitSum_zero_iff]
  intro he
  rw [he] at h
  exact Finset.not_nonempty_empty h

theorem topBits_zero (S : Finset Nat) : topBits 0 S = ∅ := by
  rw [topBits, Finset.filter_eq_empty_iff]
  intro r _
  omega

theorem topBits_subset (k : Nat) (S : Finset Nat) : topBits k S ⊆ S :=
  Finset.filter_subset _ _

theorem topBits_insert_max (k : Nat) (S : Finset Nat) (h : S.Nonempty) :
    topBits (k + 1) S = insert (S.max' h) (topBits k (S.erase (S.max' h))) := by
  set M := S.max' h with hM
  have hMS : M ∈ S := S.max'_mem h
  have hfM : S.filter (fun s => M < s) = ∅ := by
    rw [Finset.filter_eq_empty_iff]
    intro s hs
    exact not_lt.2 (S.le_max' s hs)
  ext r
  simp only [topBits, Finset.mem_filter, Finset.mem_insert, Finset.mem_erase]
  by_cases hrM : r = M
  · subst hrM
    simp [hMS, hfM]
  · constructor
    · rintro ⟨hrS, hcard⟩
      right
      refine ⟨⟨hrM, hrS⟩, ?_⟩
      have hsplit : S.filter (fun s => r < s) =
          insert M ((S.erase M).filter (fun s => r < s)) := by
        ext s
        simp only [Finset.mem_filter, Finset.mem_insert, Finset.mem_erase]
        constructor
        · rintro ⟨hsS, hrs⟩
          by_cases hsM : s = M
          · exact Or.inl hsM
          · exact Or.inr ⟨⟨hsM, hsS⟩, hrs⟩
        · rintro (hsM | ⟨⟨_, hsS⟩, hrs⟩)
          · subst hsM
            exact ⟨hMS, lt_of_le_of_ne (S.le_max' r hrS) hrM⟩
          · exact ⟨hsS, hrs⟩
      have hnotin : M ∉ (S.erase M).filter (fun s => r < s) := by
        simp [Finset.mem_filter]
      rw [hsplit, Finset.card_insert_of_not_mem hnotin] at hcard
      omega
    · rintro (hrM' | ⟨⟨_, hrS⟩, hcard⟩)
      · exact absurd hrM' hrM
      · refine ⟨hrS, ?_⟩
        have hsplit : S.filter (fun s => r < s) =
            insert M ((S.erase M).filter (fun s => r < s)) := by
          ext s
          simp only [Finset.mem_filter, Finset.mem_insert, Finset.mem_erase]
          constructor
          · rintro ⟨hsS, hrs⟩
            by_cases hsM : s = M
            · exact Or.inl hsM
            · exact Or.inr ⟨⟨hsM, hsS⟩, hrs⟩
          · rintro (hsM | ⟨⟨_, hsS⟩, hrs⟩)
            · subst hsM
              exact ⟨hMS, lt_of_le_of_ne (S.le_max' r hrS) hrM⟩
            · exact ⟨hsS, hrs⟩
        have hnotin : M ∉ (S.erase M).filter (fun s => r < s) := by
          simp [Finset.mem_filter]
        rw [hsplit, Finset.card_insert_of_not_mem hnotin]
        omega

theorem topBits_card (k : Nat) (S : Finset Nat) (h : k ≤ S.card) :
    (topBits k S).card = k := by
  have main : ∀ (k : Nat) (S : Finset Nat), k ≤ S.card → (topBits k S).card = k := by
    intro k
    induction k with
    | zero =>
      intro S _
      rw [topBits_zero]
      rfl
    | succ k ih =>
      intro S hk
      have hne : S.Nonempty := by
        rw [← Finset.card_pos]
        omega
      rw [topBits_insert_max k S hne]
      have hM : S.max' hne ∉ topBits k (S.erase (S.max' hne)) := by
        intro hmem
        have := topBits_subset k (S.erase (S.max' hne)) hmem
        simp [Finset.mem_erase] at this
      rw [Finset.card_insert_of_not_mem hM,
        ih _ (by rw [Finset.card_erase_of_mem (S.max'_mem hne)]; omega)]
  exact main k S h

theorem topBits_eq_self (k : Nat) (S : Finset Nat) (h : S.card ≤ k) :
    topBits k S = S := by
  rw [topBits, Finset.filter_eq_self]
  intro r hr
  have h1 : S.filter (fun s => r < s) ⊆ S.erase r := by
    intro s hs
    rw [Finset.mem_filter] at hs
    rw [Finset.mem_erase]
    exact ⟨by omega, hs.1⟩
  have h2 := Finset.card_le_card h1
  rw [Finset.card_erase_of_mem hr] at h2
  have : 0 < S.card := Finset.card_pos.2 ⟨r, hr⟩
  omega

theorem keepHighestAux_spec (bsr : Nat → Nat)
    (hbsr : ∀ n, n ≠ 0 → n < 2 ^ 16 → bsr n = Nat.log2 n) :
    ∀ (k : Nat) (S R : Finset Nat), S ⊆ Finset.range 16 → R ⊆ Finset.range 16 →
      Disjoint S R → k ≤ S.card →
      keepHighestAux bsr k (bitSum S) (bitSum R) = bitSum (R ∪ topBits k S) := by
  intro k
  induction k with
  | zero =>
    intro S R _ _ _ _
    rw [keepHighestAux, topBits_zero, Finset.union_empty]
  | succ k ih =>
    intro S R hS hR hdisj hk
    have hne : S.Nonempty := by
      rw [← Finset.card_pos]
      omega
    set M := S.max' hne with hMdef
    have hMS : M ∈ S := S.max'_mem hne
    have hM16 : M < 16 := Finset.mem_range.1 (hS hMS)
    have hb : bsr (bitSum S) = M := by
      rw [hbsr (bitSum S) (bitSum_ne_zero S hne) (bitSum_lt S 16 hS), log2_bitSum S hne]
    have hres : (bitSum R ||| 1 <<< bsr (bitSum S)) % 2 ^ 16 = bitSum (R ∪ {M}) := by
      rw [hb, Nat.shiftLeft_eq, Nat.one_mul, show (2 : Nat) ^ M = bitSum {M} from
        (Finset.sum_singleton _ _).symm, lor_bitSum, Nat.mod_eq_of_lt]
      apply bitSum_lt
      intro e he
      rcases Finset.mem_union.1 he with h1 | h1
      · exact hR h1
      · rw [Finset.mem_singleton] at h1
        subst h1
        exact Finset.mem_range.2 hM16
    have hx : bitSum S &&& (0xFFFFFFFF ^^^ bitSum (R ∪ {M})) = bitSum (S.erase M) := by
      rw [show (0xFFFFFFFF : Nat) = 2 ^ 32 - 1 from by norm_num,
        clear_bitSum S (R ∪ {M}) 32 (fun e he => Finset.mem_range.2
          (lt_trans (Finset.mem_range.1 (hS he)) (by norm_num)))]
      congr 1
      ext e
      simp only [Finset.mem_sdiff, Finset.mem_union, Finset.mem_singleton, Finset.mem_erase]
      constructor
      · rintro ⟨heS, hnot⟩
        push_neg at hnot
        exact ⟨hnot.2, heS⟩
      · rintro ⟨heM, heS⟩
        refine ⟨heS, ?_⟩
        push_neg
        exact ⟨fun hc => (Finset.disjoint_left.1 hdisj) heS hc, heM⟩
    simp only [keepHighestAux]
    rw [hres, hx]
    rw [ih (S.erase M) (R ∪ {M})
      (fun e he => hS (Finset.mem_of_mem_erase he))
      (fun e he => by
        rcases Finset.mem_union.1 he with h1 | h1
        · exact hR h1
        · rw [Finset.mem_singleton] at h1
          subst h1
          exact Finset.mem_range.2 hM16)
      (by
        rw [Finset.disjoint_left]
        intro a ha hc
        rcases Finset.mem_union.1 hc with h1 | h1
        · exact (Finset.disjoint_left.1 hdisj) (Finset.mem_of_mem_erase ha) h1
        · rw [Finset.mem_singleton] at h1
          subst h1
          simp [Finset.mem_erase] at ha)
      (by rw [Finset.card_erase_of_mem hMS]; omega)]
    rw [topBits_insert_max k S hne, ← hMdef]
    congr 1
    ext e
    simp only [Finset.mem_union, Finset.mem_singleton, Finset.mem_insert]
    tauto

theorem KeepHighestBitsSetB_eq_topBits (bsr : Nat → Nat)
    (hbsr : ∀ n, n ≠ 0 → n < 2 ^ 16 → bsr n = Nat.log2 n)
    (k : Nat) (S : Finset Nat) (hS : S ⊆ Finset.range 16) (hk : k ≤ S.card) :
    KeepHighestBitsSetB bsr k (bitSum S) = bitSum (topBits k S) := by
  rw [KeepHighestBitsSetB, show (0 : Nat) = bitSum ∅ from rfl,
    keepHighestAux_spec bsr hbsr k S ∅ hS (Finset.empty_subset _)
      (Finset.disjoint_right.2 (fun h => by simp)) hk,
    Finset.empty_union]

theorem KeepHighestBitsSet_eq_topBits (k : Nat) (S : Finset Nat)
    (hS : S ⊆ Finset.range 16) (hk : k ≤ S.card) :
    KeepHighestBitsSet k (bitSum S) = bitSum (topBits k S) :=
  KeepHighestBitsSetB_eq_topBits bit_scan_reverse
    (fun n _ hn => bit_scan_reverse_eq_log2 n (lt_trans hn (by norm_num)))
    k S hS hk

theorem suitRanks_eq_image (cs : List Card) (hval : ∀ c ∈ cs, validCard c) (s : Nat) :
    suitRanks cs s = (cs.toFinset.filter (fun c => c.suit = s)).image (fun c => c.rank) := by
  ext r
  simp only [suitRanks, Finset.mem_filter, Finset.mem_range, Finset.mem_image,
    List.mem_toFinset]
  constructor
  · rintro ⟨hr13, hmem⟩
    exact ⟨Card.mk r s, ⟨hmem, rfl⟩, rfl⟩
  · rintro ⟨⟨cr, csu⟩, ⟨hcs, hsuit⟩, hrank⟩
    simp only at hsuit hrank
    subst hsuit
    subst hrank
    exact ⟨(hval _ hcs).1, hcs⟩

theorem suitCount_eq_card (cs : List Card) (hnd : cs.Nodup) (s : Nat) :
    suitCount cs s = (cs.toFinset.filter (fun c => c.suit = s)).card := by
  rw [suitCount, List.countP_eq_length_filter]
  have h1 : (cs.filter (fun c => c.suit == s)).toFinset =
      cs.toFinset.filter (fun c => c.suit = s) := by
    rw [List.toFinset_filter]
    apply Finset.filter_congr
    intro c _
    simp
  rw [← h1, List.toFinset_card_of_nodup (hnd.filter _)]

theorem lane_sum_eq (cs : List Card) (hnd : cs.Nodup) (hval : ∀ c ∈ cs, validCard c) (s : Nat) :
    ∑ c in cs.toFinset.filter (fun c => c.suit = s), (2 ^ 13 + 2 ^ c.rank) = laneOf cs s := by
  rw [Finset.sum_add_distrib, Finset.sum_const, smul_eq_mul, laneOf,
    suitCount_eq_card cs hnd s, Nat.mul_comm]
  congr 1
  rw [suitRanks_eq_image cs hval s, bitSum, Finset.sum_image]
  intro c1 h1 c2 h2 heq
  rw [Finset.mem_filter] at h1 h2
  rcases c1 with ⟨r1, s1⟩
  rcases c2 with ⟨r2, s2⟩
  simp only at heq h1 h2
  rw [heq, h1.2, h2.2]

theorem cardVal_eq (c : Card) (hc : validCard c) :
    cardVal c = (2 ^ 13 + 2 ^ c.rank) * 2 ^ (16 * c.suit) := by
  have hor : ∀ r, r < 13 → ((0x2000 : Nat) ||| (1 <<< r)) = 2 ^ 13 + 2 ^ r := by decide
  have hrank := hc.1
  have hsuit := hc.2
  rw [cardVal, hor c.rank hrank, Nat.shiftLeft_eq, Nat.mod_eq_of_lt]
  calc (2 ^ 13 + 2 ^ c.rank) * 2 ^ (16 * c.suit)
      < 2 ^ 16 * 2 ^ (16 * c.suit) := by
        have h1 : (2 : Nat) ^ c.rank ≤ 2 ^ 12 := Nat.pow_le_pow_right (by norm_num) (by omega)
        have h2 : (0 : Nat) < 2 ^ (16 * c.suit) := Nat.pos_pow_of_pos _ (by norm_num)
        apply Nat.mul_lt_mul_of_lt_of_le _ (Nat.le_refl _) h2
        norm_num
        omega
    _ = 2 ^ (16 + 16 * c.suit) := by rw [← pow_add]
    _ ≤ 2 ^ 64 := Nat.pow_le_pow_right (by norm_num) (by omega)

theorem hand2OfCards_lanes (cs : List Card) (hnd : cs.Nodup)
    (hval : ∀ c ∈ cs, validCard c) (hlen : cs.length ≤ 7) :
    hand2OfCards cs =
      laneOf cs 0 + laneOf cs 1 * 2 ^ 16 + laneOf cs 2 * 2 ^ 32 + laneOf cs 3 * 2 ^ 48 := by
  have hlane_lt : ∀ s, laneOf cs s < 2 ^ 16 := by
    intro s
    have h1 : suitCount cs s ≤ 7 :=
      le_trans (List.countP_le_length _) hlen
    have h2 : bitSum (suitRanks cs s) < 2 ^ 13 :=
      bitSum_lt _ _ (Finset.filter_subset _ _)
    rw [laneOf]
    omega
  have hsum : (cs.map cardVal).sum =
      laneOf cs 0 + laneOf cs 1 * 2 ^ 16 + laneOf cs 2 * 2 ^ 32 + laneOf cs 3 * 2 ^ 48 := by
    rw [← List.sum_toFinset _ hnd]
    rw [← Finset.sum_fiberwise_of_maps_to
      (fun c hc => Finset.mem_range.2 (hval c (List.mem_toFinset.1 hc)).2) cardVal]
    have hinner : ∀ s, ∑ c in cs.toFinset.filter (fun c => c.suit = s), cardVal c =
        laneOf cs s * 2 ^ (16 * s) := by
      intro s
      rw [← lane_sum_eq cs hnd hval s, Finset.sum_mul]
      apply Finset.sum_congr rfl
      intro c hc
      rw [Finset.mem_filter] at hc
      rw [cardVal_eq c (hval c (List.mem_toFinset.1 hc.1)), hc.2]
    rw [Finset.sum_range_succ, Finset.sum_range_succ, Finset.sum_range_succ,
      Finset.sum_range_succ, Finset.sum_range_zero, hinner 0, hinner 1, hinner 2, hinner 3]
    norm_num
  rw [hand2OfCards_eq_sum, hsum, Nat.mod_eq_of_lt]
  have h0 := hlane_lt 0
  have h1 := hlane_lt 1
  have h2 := hlane_lt 2
  have h3 := hlane_lt 3
  have : (2 : Nat) ^ 64 = 18446744073709551616 := by norm_num
  omega

theorem testBit_four_lanes {l0 l1 l2 l3 : Nat} (h0 : l0 < 2 ^ 16) (h1 : l1 < 2 ^ 16)
    (h2 : l2 < 2 ^ 16) (h3 : l3 < 2 ^ 16) (j : Nat) :
    (l0 + l1 * 2 ^ 16 + l2 * 2 ^ 32 + l3 * 2 ^ 48).testBit j =
      if j < 16 then l0.testBit j
      else if j < 32 then l1.testBit (j - 16)
      else if j < 48 then l2.testBit (j - 32)
      else if j < 64 then l3.testBit (j - 48)
      else false := by
  have e : l0 + l1 * 2 ^ 16 + l2 * 2 ^ 32 + l3 * 2 ^ 48 =
      2 ^ 16 * (2 ^ 16 * (2 ^ 16 * l3 + l2) + l1) + l0 := by ring
  rw [e, Nat.testBit_mul_pow_two_add _ h0]
  by_cases c0 : j < 16
  · simp [c0]
  · rw [if_neg c0, if_neg c0, Nat.testBit_mul_pow_two_add _ h1]
    by_cases c1 : j < 32
    · rw [if_pos (show j - 16 < 16 by omega), if_pos c1]
    · rw [if_neg (show ¬ (j - 16 < 16) by omega), if_neg c1,
        Nat.testBit_mul_pow_two_add _ h2, show j - 16 - 16 = j - 32 from by omega]
      by_cases c2 : j < 48
      · rw [if_pos (show j - 32 < 16 by omega), if_pos c2]
      · rw [if_neg (show ¬ (j - 32 < 16) by omega), if_neg c2,
          show j - 32 - 16 = j - 48 from by omega]
        by_cases c3 : j < 64
        · rw [if_pos c3]
        · rw [if_neg c3]
          apply Nat.testBit_lt_two_pow
          calc l3 < 2 ^ 16 := h3
            _ ≤ 2 ^ (j - 48) := Nat.pow_le_pow_right (by norm_num) (by omega)

theorem and_four_lanes {l0 l1 l2 l3 m0 m1 m2 m3 : Nat}
    (h0 : l0 < 2 ^ 16) (h1 : l1 < 2 ^ 16) (h2 : l2 < 2 ^ 16) (h3 : l3 < 2 ^ 16)
    (k0 : m0 < 2 ^ 16) (k1 : m1 < 2 ^ 16) (k2 : m2 < 2 ^ 16) (k3 : m3 < 2 ^ 16) :
    (l0 + l1 * 2 ^ 16 + l2 * 2 ^ 32 + l3 * 2 ^ 48) &&&
      (m0 + m1 * 2 ^ 16 + m2 * 2 ^ 32 + m3 * 2 ^ 48) =
    (l0 &&& m0) + (l1 &&& m1) * 2 ^ 16 + (l2 &&& m2) * 2 ^ 32 + (l3 &&& m3) * 2 ^ 48 := by
  apply Nat.eq_of_testBit_eq
  intro j
  rw [Nat.testBit_and, testBit_four_lanes h0 h1 h2 h3, testBit_four_lanes k0 k1 k2 k3,
    testBit_four_lanes (Nat.and_lt_two_pow _ k0) (Nat.and_lt_two_pow _ k1)
      (Nat.and_lt_two_pow _ k2) (Nat.and_lt_two_pow _ k3)]
  by_cases c0 : j < 16
  · simp [c0, Nat.testBit_and]
  · by_cases c1 : j < 32
    · simp [c0, c1, Nat.testBit_and]
    · by_cases c2 : j < 48
      · simp [c0, c1, c2, Nat.testBit_and]
      · by_cases c3 : j < 64 <;> simp [c0, c1, c2, c3, Nat.testBit_and]

theorem digits_four_lanes {l0 l1 l2 l3 : Nat} (h0 : l0 < 2 ^ 16) (h1 : l1 < 2 ^ 16)
    (h2 : l2 < 2 ^ 16) (h3 : l3 < 2 ^ 16) :
    (l0 + l1 * 2 ^ 16 + l2 * 2 ^ 32 + l3 * 2 ^ 48) % 2 ^ 16 = l0 ∧
    ((l0 + l1 * 2 ^ 16 + l2 * 2 ^ 32 + l3 * 2 ^ 48) >>> 16) % 2 ^ 16 = l1 ∧
    ((l0 + l1 * 2 ^ 16 + l2 * 2 ^ 32 + l3 * 2 ^ 48) >>> 32) % 2 ^ 16 = l2 ∧
    ((l0 + l1 * 2 ^ 16 + l2 * 2 ^ 32 + l3 * 2 ^ 48) >>> 48) % 2 ^ 16 = l3 := by
  rw [Nat.shiftRight_eq_div_pow, Nat.shiftRight_eq_div_pow, Nat.shiftRight_eq_div_pow]
  norm_num
  omega

theorem lane_and_1FFF (cs : List Card) (s : Nat) :
    laneOf cs s &&& 0x1FFF = bitSum (suitRanks cs s) := by
  have hb : bitSum (suitRanks cs s) < 2 ^ 13 := bitSum_lt _ _ (Finset.filter_subset _ _)
  rw [show (0x1FFF : Nat) = 2 ^ 13 - 1 from by norm_num, Nat.and_pow_two_sub_one_eq_mod,
    laneOf, Nat.mul_add_mod, Nat.mod_eq_of_lt hb]

theorem lane_and_E000 (cs : List Card) (s : Nat) (hcnt : suitCount cs s < 8) :
    laneOf cs s &&& 0xE000 = 2 ^ 13 * suitCount cs s := by
  have hb : bitSum (suitRanks cs s) < 2 ^ 13 := bitSum_lt _ _ (Finset.filter_subset _ _)
  apply Nat.eq_of_testBit_eq
  intro j
  rw [Nat.testBit_and, laneOf, Nat.testBit_mul_pow_two_add _ hb,
    show (0xE000 : Nat) = bitSum {13, 14, 15} from by decide,
    Nat.testBit_mul_pow_two]
  by_cases hj13 : j < 13
  · simp only [if_pos hj13]
    have : j ∉ ({13, 14, 15} : Finset Nat) := by
      simp only [Finset.mem_insert, Finset.mem_singleton]
      omega
    simp [testBit_bitSum, this, show ¬ j ≥ 13 from by omega]
  · rw [if_neg hj13]
    by_cases hj16 : j < 16
    · have : j ∈ ({13, 14, 15} : Finset Nat) := by
        simp only [Finset.mem_insert, Finset.mem_singleton]
        omega
      simp [testBit_bitSum, this, show j ≥ 13 from by omega]
    · have hnot : j ∉ ({13, 14, 15} : Finset Nat) := by
        simp only [Finset.mem_insert, Finset.mem_singleton]
        omega
      have hcntbit : (suitCount cs s).testBit (j - 13) = false := by
        apply Nat.testBit_lt_two_pow
        calc suitCount cs s < 8 := hcnt
          _ = 2 ^ 3 := by norm_num
          _ ≤ 2 ^ (j - 13) := Nat.pow_le_pow_right (by norm_num) (by omega)
      simp [testBit_bitSum, hnot, hcntbit]

theorem masked_v_lanes (cs : List Card) (hnd : cs.Nodup)
    (hval : ∀ c ∈ cs, validCard c) (hlen : cs.length ≤ 7) :
    hand2OfCards cs &&& 0x1FFF1FFF1FFF1FFF =
      bitSum (suitRanks cs 0) + bitSum (suitRanks cs 1) * 2 ^ 16 +
      bitSum (suitRanks cs 2) * 2 ^ 32 + bitSum (suitRanks cs 3) * 2 ^ 48 := by
  have hlane_lt : ∀ s, laneOf cs s < 2 ^ 16 := by
    intro s
    have h1 : suitCount cs s ≤ 7 := le_trans (List.countP_le_length _) hlen
    have h2 : bitSum (suitRanks cs s) < 2 ^ 13 := bitSum_lt _ _ (Finset.filter_subset _ _)
    rw [laneOf]
    omega
  rw [hand2OfCards_lanes cs hnd hval hlen,
    show (0x1FFF1FFF1FFF1FFF : Nat) =
      0x1FFF + 0x1FFF * 2 ^ 16 + 0x1FFF * 2 ^ 32 + 0x1FFF * 2 ^ 48 from by norm_num,
    and_four_lanes (hlane_lt 0) (hlane_lt 1) (hlane_lt 2) (hlane_lt 3)
      (by norm_num) (by norm_num) (by norm_num) (by norm_num),
    lane_and_1FFF, lane_and_1FFF, lane_and_1FFF, lane_and_1FFF]

theorem masked_sc_lanes (cs : List Card) (hnd : cs.Nodup)
    (hval : ∀ c ∈ cs, validCard c) (hlen : cs.length ≤ 7) :
    hand2OfCards cs &&& 0xE000E000E000E000 =
      2 ^ 13 * suitCount cs 0 + 2 ^ 13 * suitCount cs 1 * 2 ^ 16 +
      2 ^ 13 * suitCount cs 2 * 2 ^ 32 + 2 ^ 13 * suitCount cs 3 * 2 ^ 48 := by
  have hlane_lt : ∀ s, laneOf cs s < 2 ^ 16 := by
    intro s
    have h1 : suitCount cs s ≤ 7 := le_trans (List.countP_le_length _) hlen
    have h2 : bitSum (suitRanks cs s) < 2 ^ 13 := bitSum_lt _ _ (Finset.filter_subset _ _)
    rw [laneOf]
    omega
  have hcnt : ∀ s, suitCount cs s < 8 := by
    intro s
    have := le_trans (List.countP_le_length (fun c => c.suit == s)) hlen
    rw [suitCount]
    omega
  rw [hand2OfCards_lanes cs hnd hval hlen,
    show (0xE000E000E000E000 : Nat) =
      0xE000 + 0xE000 * 2 ^ 16 + 0xE000 * 2 ^ 32 + 0xE000 * 2 ^ 48 from by norm_num,
    and_four_lanes (hlane_lt 0) (hlane_lt 1) (hlane_lt 2) (hlane_lt 3)
      (by norm_num) (by norm_num) (by norm_num) (by norm_num),
    lane_and_E000 cs 0 (hcnt 0), lane_and_E000 cs 1 (hcnt 1), lane_and_E000 cs 2 (hcnt 2),
    lane_and_E000 cs 3 (hcnt 3)]

theorem rankCount_eq_card (cs : List Card) (hnd : cs.Nodup) (r : Nat) :
    rankCount cs r = (cs.toFinset.filter (fun c => c.rank = r)).card := by
  rw [rankCount, List.countP_eq_length_filter]
  have h1 : (cs.filter (fun c => c.rank == r)).toFinset =
      cs.toFinset.filter (fun c => c.rank = r) := by
    rw [List.toFinset_filter]
    apply Finset.filter_congr
    intro c _
    simp
  rw [← h1, List.toFinset_card_of_nodup (hnd.filter _)]

theorem rankCount_eq_suit_card (cs : List Card) (hnd : cs.Nodup)
    (hval : ∀ c ∈ cs, validCard c) (r : Nat) :
    rankCount cs r = ((Finset.range 4).filter (fun s => Card.mk r s ∈ cs)).card := by
  rw [rankCount_eq_card cs hnd r]
  have himg : (cs.toFinset.filter (fun c => c.rank = r)).image (fun c => c.suit) =
      (Finset.range 4).filter (fun s => Card.mk r s ∈ cs) := by
    ext s
    simp only [Finset.mem_image, Finset.mem_filter, List.mem_toFinset, Finset.mem_range]
    constructor
    · rintro ⟨⟨cr, csu⟩, ⟨hcs, hrank⟩, hsuit⟩
      simp only at hrank hsuit
      subst hrank
      subst hsuit
      exact ⟨(hval _ hcs).2, hcs⟩
    · rintro ⟨hs4, hmem⟩
      exact ⟨Card.mk r s, ⟨hmem, rfl⟩, rfl⟩
  rw [← himg]
  rw [Finset.card_image_of_injOn]
  intro c1 h1 c2 h2 heq
  rw [Finset.mem_coe, Finset.mem_filter] at h1 h2
  rcases c1 with ⟨r1, s1⟩
  rcases c2 with ⟨r2, s2⟩
  simp only at heq h1 h2
  rw [h1.2, h2.2, heq]

theorem rankCount_eq_suit_toNat (cs : List Card) (hnd : cs.Nodup)
    (hval : ∀ c ∈ cs, validCard c) (r : Nat) :
    rankCount cs r = (decide (Card.mk r 0 ∈ cs)).toNat + (decide (Card.mk r 1 ∈ cs)).toNat +
      (decide (Card.mk r 2 ∈ cs)).toNat + (decide (Card.mk r 3 ∈ cs)).toNat := by
  rw [rankCount_eq_suit_card cs hnd hval r, Finset.card_filter,
    Finset.sum_range_succ, Finset.sum_range_succ, Finset.sum_range_succ,
    Finset.sum_range_succ, Finset.sum_range_zero]
  have hh : ∀ s : Nat, (if Card.mk r s ∈ cs then 1 else 0) = (decide (Card.mk r s ∈ cs)).toNat := by
    intro s
    by_cases h : Card.mk r s ∈ cs <;> simp [h]
  rw [hh 0, hh 1, hh 2, hh 3]
  omega

theorem layered_bool (b0 b1 b2 b3 : Bool) :
    (((b0 || b1) || b2) || b3) =
      decide (1 ≤ b0.toNat + b1.toNat + b2.toNat + b3.toNat) ∧
    (((b0 && b1) || ((b0 || b1) && b2)) || (((b0 || b1) || b2) && b3)) =
      decide (2 ≤ b0.toNat + b1.toNat + b2.toNat + b3.toNat) ∧
    (((b0 && b1) && b2) || (((b0 && b1) || ((b0 || b1) && b2)) && b3)) =
      decide (3 ≤ b0.toNat + b1.toNat + b2.toNat + b3.toNat) ∧
    (((b0 && b1) && b2) && b3) =
      decide (4 ≤ b0.toNat + b1.toNat + b2.toNat + b3.toNat) := by
  cases b0 <;> cases b1 <;> cases b2 <;> cases b3 <;> decide

theorem point_layer (cs : List Card) (hnd : cs.Nodup)
    (hval : ∀ c ∈ cs, validCard c) (j : Nat) :
    (((decide (j ∈ suitRanks cs 0) || decide (j ∈ suitRanks cs 1)) ||
        decide (j ∈ suitRanks cs 2)) || decide (j ∈ suitRanks cs 3)) =
      decide (j ∈ ranksAtLeast cs 1) ∧
    (((decide (j ∈ suitRanks cs 0) && decide (j ∈ suitRanks cs 1)) ||
        ((decide (j ∈ suitRanks cs 0) || decide (j ∈ suitRanks cs 1)) &&
          decide (j ∈ suitRanks cs 2))) ||
      (((decide (j ∈ suitRanks cs 0) || decide (j ∈ suitRanks cs 1)) ||
          decide (j ∈ suitRanks cs 2)) && decide (j ∈ suitRanks cs 3))) =
      decide (j ∈ ranksAtLeast cs 2) ∧
    (((decide (j ∈ suitRanks cs 0) && decide (j ∈ suitRanks cs 1)) &&
        decide (j ∈ suitRanks cs 2)) ||
      (((decide (j ∈ suitRanks cs 0) && decide (j ∈ suitRanks cs 1)) ||
          ((decide (j ∈ suitRanks cs 0) || decide (j ∈ suitRanks cs 1)) &&
            decide (j ∈ suitRanks cs 2))) && decide (j ∈ suitRanks cs 3))) =
      decide (j ∈ ranksAtLeast cs 3) ∧
    (((decide (j ∈ suitRanks cs 0) && decide (j ∈ suitRanks cs 1)) &&
        decide (j ∈ suitRanks cs 2)) && decide (j ∈ suitRanks cs 3)) =
      decide (j ∈ ranksAtLeast cs 4) := by
  by_cases hj : j < 13
  · have hb : ∀ s, (decide (j ∈ suitRanks cs s)) = decide (Card.mk j s ∈ cs) := by
      intro s
      simp [suitRanks, Finset.mem_filter, Finset.mem_range, hj]
    have hr : ∀ k, (decide (j ∈ ranksAtLeast cs k)) = decide (k ≤ rankCount cs j) := by
      intro k
      simp [ranksAtLeast, Finset.mem_filter, Finset.mem_range, hj]
    rw [hb 0, hb 1, hb 2, hb 3, hr 1, hr 2, hr 3, hr 4,
      rankCount_eq_suit_toNat cs hnd hval j]
    exact layered_bool _ _ _ _
  · have hb : ∀ s, (decide (j ∈ suitRanks cs s)) = false := by
      intro s
      simp [suitRanks, Finset.mem_filter, Finset.mem_range, hj]
    have hr : ∀ k, (decide (j ∈ ranksAtLeast cs k)) = false := by
      intro k
      simp [ranksAtLeast, Finset.mem_filter, Finset.mem_range, hj]
    rw [hb 0, hb 1, hb 2, hb 3, hr 1, hr 2, hr 3, hr 4]
    simp

theorem rankMasks_eq (cs : List Card) (hnd : cs.Nodup)
    (hval : ∀ c ∈ cs, validCard c) (hlen : cs.length ≤ 7) :
    rankMasks (hand2OfCards cs) =
      (bitSum (ranksAtLeast cs 1), bitSum (ranksAtLeast cs 2),
        bitSum (ranksAtLeast cs 3), bitSum (ranksAtLeast cs 4)) := by
  have hsm : ∀ s, bitSum (suitRanks cs s) < 2 ^ 16 := by
    intro s
    calc bitSum (suitRanks cs s) < 2 ^ 13 := bitSum_lt _ _ (Finset.filter_subset _ _)
      _ < 2 ^ 16 := by norm_num
  obtain ⟨d0, d1, d2, d3⟩ := digits_four_lanes (hsm 0) (hsm 1) (hsm 2) (hsm 3)
  simp only [rankMasks]
  rw [masked_v_lanes cs hnd hval hlen, d0, d1, d2, d3]
  have hp := fun j => point_layer cs hnd hval j
  simp only [Prod.mk.injEq]
  refine ⟨?_, ?_, ?_, ?_⟩ <;>
    (apply Nat.eq_of_testBit_eq
     intro j
     simp only [Nat.testBit_or, Nat.testBit_and, testBit_bitSum])
  · exact (hp j).1
  · exact (hp j).2.1
  · exact (hp j).2.2.1
  · exact (hp j).2.2.2

theorem flush_count_bool (c : Nat) (hc : c < 8) :
    (c.testBit 2 && (c.testBit 1 || c.testBit 0)) = decide (5 ≤ c) := by
  interval_cases c <;> decide

theorem sum_suitCount (cs : List Card) (hval : ∀ c ∈ cs, validCard c) :
    ∑ s in Finset.range 4, suitCount cs s = cs.length := by
  induction cs with
  | nil => simp [suitCount]
  | cons c cs ih =>
    have hval' : ∀ d ∈ cs, validCard d := fun d hd => hval d (List.mem_cons_of_mem c hd)
    have hcs : c.suit < 4 := (hval c (List.mem_cons_self c cs)).2
    have hstep : ∀ s, suitCount (c :: cs) s = suitCount cs s + if c.suit = s then 1 else 0 := by
      intro s
      rw [suitCount, suitCount, List.countP_cons]
      by_cases h : c.suit = s <;> simp [h]
    simp only [hstep]
    rw [Finset.sum_add_distrib, ih hval', Finset.sum_ite_eq (Finset.range 4) c.suit
      (fun _ => 1), if_pos (Finset.mem_range.2 hcs)]
    simp [List.length_cons]

theorem sc2_eq (cs : List Card) (hnd : cs.Nodup)
    (hval : ∀ c ∈ cs, validCard c) (hlen : cs.length ≤ 7) :
    (hand2OfCards cs &&& 0xE000E000E000E000) &&&
      ((((hand2OfCards cs &&& 0xE000E000E000E000) <<< 1 % 2 ^ 64) |||
        ((hand2OfCards cs &&& 0xE000E000E000E000) <<< 2 % 2 ^ 64)) &&&
       0x8000800080008000) =
    bitSum (((Finset.range 4).filter (fun s => 5 ≤ suitCount cs s)).image
      (fun s => 16 * s + 15)) := by
  have hcnt : ∀ s, suitCount cs s < 8 := by
    intro s
    have := le_trans (List.countP_le_length (fun c => c.suit == s)) hlen
    rw [suitCount]
    omega
  have hb : ∀ s, 2 ^ 13 * suitCount cs s < 2 ^ 16 := by
    intro s
    have := hcnt s
    omega
  have hmem : ∀ i, (i ∈ (((Finset.range 4).filter (fun s => 5 ≤ suitCount cs s)).image
      (fun s => 16 * s + 15))) ↔ ∃ s, s < 4 ∧ 5 ≤ suitCount cs s ∧ i = 16 * s + 15 := by
    intro i
    simp only [Finset.mem_image, Finset.mem_filter, Finset.mem_range]
    constructor
    · rintro ⟨s, ⟨hs4, hs5⟩, heq⟩
      exact ⟨s, hs4, hs5, heq.symm⟩
    · rintro ⟨s, hs4, hs5, heq⟩
      exact ⟨s, ⟨hs4, hs5⟩, heq.symm⟩
  have himg : ∀ s j, s < 4 → j = 16 * s + 15 → (decide (j ∈
      (((Finset.range 4).filter (fun t => 5 ≤ suitCount cs t)).image
        (fun t => 16 * t + 15)))) = decide (5 ≤ suitCount cs s) := by
    intro s j hs hj
    rw [decide_eq_decide, hmem j]
    constructor
    · rintro ⟨t, ht4, ht5, heq⟩
      have : t = s := by omega
      subst this
      exact ht5
    · intro h5
      exact ⟨s, hs, h5, hj⟩
  have himg15 : (decide ((15 : Nat) ∈
      (((Finset.range 4).filter (fun t => 5 ≤ suitCount cs t)).image
        (fun t => 16 * t + 15)))) = decide (5 ≤ suitCount cs 0) :=
    himg 0 15 (by norm_num) (by norm_num)
  have himg31 : (decide ((31 : Nat) ∈
      (((Finset.range 4).filter (fun t => 5 ≤ suitCount cs t)).image
        (fun t => 16 * t + 15)))) = decide (5 ≤ suitCount cs 1) :=
    himg 1 31 (by norm_num) (by norm_num)
  have himg47 : (decide ((47 : Nat) ∈
      (((Finset.range 4).filter (fun t => 5 ≤ suitCount cs t)).image
        (fun t => 16 * t + 15)))) = decide (5 ≤ suitCount cs 2) :=
    himg 2 47 (by norm_num) (by norm_num)
  have himg63 : (decide ((63 : Nat) ∈
      (((Finset.range 4).filter (fun t => 5 ≤ suitCount cs t)).image
        (fun t => 16 * t + 15)))) = decide (5 ≤ suitCount cs 3) :=
    himg 3 63 (by norm_num) (by norm_num)
  rw [masked_sc_lanes cs hnd hval hlen]
  apply Nat.eq_of_testBit_eq
  intro j
  rw [Nat.testBit_and, Nat.testBit_and, Nat.testBit_or, Nat.testBit_mod_two_pow,
    Nat.testBit_mod_two_pow, Nat.testBit_shiftLeft, Nat.testBit_shiftLeft,
    show (0x8000800080008000 : Nat) = bitSum {15, 31, 47, 63} from by decide,
    testBit_bitSum, testBit_bitSum]
  by_cases hjm : j ∈ ({15, 31, 47, 63} : Finset Nat)
  · fin_cases hjm <;>
      (simp only [testBit_four_lanes (hb 0) (hb 1) (hb 2) (hb 3)]
       norm_num [Nat.testBit_mul_pow_two]
       rw [show (8192 : Nat) = 2 ^ 13 from by norm_num, Nat.testBit_mul_pow_two,
         Nat.testBit_mul_pow_two, Nat.testBit_mul_pow_two]
       norm_num
       simp only [himg15, himg31, himg47, himg63, ← Nat.testBit_zero]
       first
         | exact flush_count_bool _ (hcnt 0)
         | exact flush_count_bool _ (hcnt 1)
         | exact flush_count_bool _ (hcnt 2)
         | exact flush_count_bool _ (hcnt 3))
  · have hnot : ¬ ∃ s, s < 4 ∧ 5 ≤ suitCount cs s ∧ j = 16 * s + 15 := by
      rintro ⟨s, hs4, _, rfl⟩
      simp only [Finset.mem_insert, Finset.mem_singleton] at hjm
      interval_cases s <;> omega
    have hrhs : (decide (j ∈ (((Finset.range 4).filter (fun s => 5 ≤ suitCount cs s)).image
        (fun s => 16 * s + 15)))) = false := by
      simp only [decide_eq_false_iff_not, hmem j]
      exact hnot
    simp [hjm, hrhs]

theorem suitCount_sum4 (cs : List Card) (hval : ∀ c ∈ cs, validCard c) :
    suitCount cs 0 + suitCount cs 1 + suitCount cs 2 + suitCount cs 3 = cs.length := by
  have := sum_suitCount cs hval
  rw [Finset.sum_range_succ, Finset.sum_range_succ, Finset.sum_range_succ,
    Finset.sum_range_succ, Finset.sum_range_zero] at this
  omega

theorem p0NumCards_eq (cs : List Card) (hnd : cs.Nodup)
    (hval : ∀ c ∈ cs, validCard c) (hlen : cs.length ≤ 7) :
    p0NumCards (hand2OfCards cs) = cs.length := by
  have hcnt : ∀ s, suitCount cs s < 8 := by
    intro s
    have := le_trans (List.countP_le_length (fun c => c.suit == s)) hlen
    rw [suitCount]
    omega
  have h0 := hcnt 0
  have h1 := hcnt 1
  have h2 := hcnt 2
  have h3 := hcnt 3
  have hsum := suitCount_sum4 cs hval
  simp only [p0NumCards]
  rw [masked_sc_lanes cs hnd hval hlen,
    show (7 : Nat) = 2 ^ 3 - 1 from by norm_num, Nat.and_pow_two_sub_one_eq_mod]
  have e1 : (2 ^ 13 * suitCount cs 0 + 2 ^ 13 * suitCount cs 1 * 2 ^ 16 +
      2 ^ 13 * suitCount cs 2 * 2 ^ 32 + 2 ^ 13 * suitCount cs 3 * 2 ^ 48) >>> 13 =
      suitCount cs 0 + suitCount cs 1 * 2 ^ 16 + suitCount cs 2 * 2 ^ 32 +
        suitCount cs 3 * 2 ^ 48 := by
    rw [Nat.shiftRight_eq_div_pow,
      show 2 ^ 13 * suitCount cs 0 + 2 ^ 13 * suitCount cs 1 * 2 ^ 16 +
        2 ^ 13 * suitCount cs 2 * 2 ^ 32 + 2 ^ 13 * suitCount cs 3 * 2 ^ 48 =
        2 ^ 13 * (suitCount cs 0 + suitCount cs 1 * 2 ^ 16 + suitCount cs 2 * 2 ^ 32 +
          suitCount cs 3 * 2 ^ 48) from by ring,
      Nat.mul_div_cancel_left _ (show (0 : Nat) < 2 ^ 13 from by norm_num)]
  have e2 : (2 ^ 13 * suitCount cs 0 + 2 ^ 13 * suitCount cs 1 * 2 ^ 16 +
      2 ^ 13 * suitCount cs 2 * 2 ^ 32 + 2 ^ 13 * suitCount cs 3 * 2 ^ 48) >>> 29 =
      suitCount cs 1 + suitCount cs 2 * 2 ^ 16 + suitCount cs 3 * 2 ^ 32 := by
    rw [Nat.shiftRight_eq_div_pow,
      show 2 ^ 13 * suitCount cs 0 + 2 ^ 13 * suitCount cs 1 * 2 ^ 16 +
        2 ^ 13 * suitCount cs 2 * 2 ^ 32 + 2 ^ 13 * suitCount cs 3 * 2 ^ 48 =
        2 ^ 29 * (suitCount cs 1 + suitCount cs 2 * 2 ^ 16 + suitCount cs 3 * 2 ^ 32) +
          2 ^ 13 * suitCount cs 0 from by ring,
      Nat.mul_add_div (show (0 : Nat) < 2 ^ 29 from by norm_num),
      Nat.div_eq_of_lt (show 2 ^ 13 * suitCount cs 0 < 2 ^ 29 from by norm_num; omega)]
    omega
  have e3 : (2 ^ 13 * suitCount cs 0 + 2 ^ 13 * suitCount cs 1 * 2 ^ 16 +
      2 ^ 13 * suitCount cs 2 * 2 ^ 32 + 2 ^ 13 * suitCount cs 3 * 2 ^ 48) >>> 45 =
      suitCount cs 2 + suitCount cs 3 * 2 ^ 16 := by
    rw [Nat.shiftRight_eq_div_pow,
      show 2 ^ 13 * suitCount cs 0 + 2 ^ 13 * suitCount cs 1 * 2 ^ 16 +
        2 ^ 13 * suitCount cs 2 * 2 ^ 32 + 2 ^ 13 * suitCount cs 3 * 2 ^ 48 =
        2 ^ 45 * (suitCount cs 2 + suitCount cs 3 * 2 ^ 16) +
          (2 ^ 13 * suitCount cs 0 + 2 ^ 13 * suitCount cs 1 * 2 ^ 16) from by ring,
      Nat.mul_add_div (show (0 : Nat) < 2 ^ 45 from by norm_num),
      Nat.div_eq_of_lt (show 2 ^ 13 * suitCount cs 0 + 2 ^ 13 * suitCount cs 1 * 2 ^ 16 <
        2 ^ 45 from by norm_num; omega)]
    omega
  have e4 : (2 ^ 13 * suitCount cs 0 + 2 ^ 13 * suitCount cs 1 * 2 ^ 16 +
      2 ^ 13 * suitCount cs 2 * 2 ^ 32 + 2 ^ 13 * suitCount cs 3 * 2 ^ 48) >>> 61 =
      suitCount cs 3 := by
    rw [Nat.shiftRight_eq_div_pow,
      show 2 ^ 13 * suitCount cs 0 + 2 ^ 13 * suitCount cs 1 * 2 ^ 16 +
        2 ^ 13 * suitCount cs 2 * 2 ^ 32 + 2 ^ 13 * suitCount cs 3 * 2 ^ 48 =
        2 ^ 61 * suitCount cs 3 + (2 ^ 13 * suitCount cs 0 + 2 ^ 13 * suitCount cs 1 * 2 ^ 16 +
          2 ^ 13 * suitCount cs 2 * 2 ^ 32) from by ring,
      Nat.mul_add_div (show (0 : Nat) < 2 ^ 61 from by norm_num),
      Nat.div_eq_of_lt (show 2 ^ 13 * suitCount cs 0 + 2 ^ 13 * suitCount cs 1 * 2 ^ 16 +
        2 ^ 13 * suitCount cs 2 * 2 ^ 32 < 2 ^ 61 from by norm_num; omega)]
    omega
  rw [e1, e2, e3, e4]
  norm_num
  omega

theorem flush_unique (cs : List Card) (hval : ∀ c ∈ cs, validCard c) (hlen : cs.length ≤ 7) :
    ∀ s1 s2, s1 < 4 → s2 < 4 → 5 ≤ suitCount cs s1 → 5 ≤ suitCount cs s2 → s1 = s2 := by
  intro s1 s2 hs1 hs2 h51 h52
  have hsum := suitCount_sum4 cs hval
  by_contra hne
  interval_cases s1 <;> interval_cases s2 <;> omega

theorem ev2FlushMask_none (cs : List Card) (hnd : cs.Nodup)
    (hval : ∀ c ∈ cs, validCard c) (hlen : cs.length ≤ 7)
    (hnf : ∀ s, s < 4 → suitCount cs s < 5) :
    ev2FlushMask (hand2OfCards cs) = 0 := by
  simp only [ev2FlushMask]
  rw [sc2_eq cs hnd hval hlen]
  have hempty : (Finset.range 4).filter (fun s => 5 ≤ suitCount cs s) = ∅ := by
    rw [Finset.filter_eq_empty_iff]
    intro s hs
    have := hnf s (Finset.mem_range.1 hs)
    omega
  rw [hempty, Finset.image_empty]
  simp [bitSum]

theorem log2_two_pow (k : Nat) : Nat.log2 (2 ^ k) = k := by
  have hne : (2 : Nat) ^ k ≠ 0 := Nat.pos_iff_ne_zero.1 (Nat.pos_pow_of_pos _ (by norm_num))
  have ha := (Nat.le_log2 hne).2 (Nat.le_refl _)
  have hb := (Nat.log2_lt hne).2 (Nat.pow_lt_pow_right (by norm_num) (Nat.lt_succ_self k))
  omega

theorem ev2FlushMask_flushed (cs : List Card) (hnd : cs.Nodup)
    (hval : ∀ c ∈ cs, validCard c) (hlen : cs.length ≤ 7)
    (s : Nat) (hs4 : s < 4) (h5 : 5 ≤ suitCount cs s) :
    ev2FlushMask (hand2OfCards cs) = bitSum (suitRanks cs s) := by
  simp only [ev2FlushMask]
  rw [sc2_eq cs hnd hval hlen]
  have hset : (Finset.range 4).filter (fun t => 5 ≤ suitCount cs t) = {s} := by
    ext t
    simp only [Finset.mem_filter, Finset.mem_range, Finset.mem_singleton]
    constructor
    · rintro ⟨ht4, ht5⟩
      exact flush_unique cs hval hlen t s ht4 hs4 ht5 h5
    · rintro rfl
      exact ⟨hs4, h5⟩
  rw [hset, Finset.image_singleton, show bitSum {16 * s + 15} = 2 ^ (16 * s + 15) from
    Finset.sum_singleton _ _]
  rw [if_pos (Nat.pos_iff_ne_zero.1 (Nat.pos_pow_of_pos _ (by norm_num))),
    bit_scan_reverse_eq_log2 _ (by
      calc (2 : Nat) ^ (16 * s + 15) < 2 ^ 64 :=
        Nat.pow_lt_pow_right (by norm_num) (by omega)),
    log2_two_pow, show (16 * s + 15) / 16 = s from by omega]
  have hsm : ∀ t, bitSum (suitRanks cs t) < 2 ^ 16 := by
    intro t
    calc bitSum (suitRanks cs t) < 2 ^ 13 := bitSum_lt _ _ (Finset.filter_subset _ _)
      _ < 2 ^ 16 := by norm_num
  obtain ⟨d0, d1, d2, d3⟩ := digits_four_lanes (hsm 0) (hsm 1) (hsm 2) (hsm 3)
  rw [masked_v_lanes cs hnd hval hlen]
  interval_cases s
  · rw [show (16 * 0 : Nat) = 0 from by norm_num, Nat.shiftRight_zero]
    exact d0
  · rw [show (16 * 1 : Nat) = 16 from by norm_num]
    exact d1
  · rw [show (16 * 2 : Nat) = 32 from by norm_num]
    exact d2
  · rw [show (16 * 3 : Nat) = 48 from by norm_num]
    exact d3

/-- C4 (amended).  The card count computed by `EvaluateHand` (unnamed
hand.cpp line 77) is correct for every well-formed hand of at most 7
cards, and its asserted precondition (line 78) holds exactly when the
hand has 5 or 7 cards — so a well-formed 6-card hand fails the
assertion, while 5- and 7-card hands pass.  `EvaluateHand2` performs
no such assertion. -/
theorem numCards_correct_assert_iff (cs : List Card) (hnd : cs.Nodup)
    (hval : ∀ c ∈ cs, validCard c) (hlen : cs.length ≤ 7) :
    p0NumCards (hand2OfCards cs) = cs.length ∧
      (p0AssertOk (hand2OfCards cs) ↔ cs.length = 5 ∨ cs.length = 7) := by
  have h := p0NumCards_eq cs hnd hval hlen
  refine ⟨h, ?_⟩
  rw [p0AssertOk, h]

/-- Closed witness for the amended C4 at a concrete 5-card hand. -/
theorem numCards_correct_assert_iff_witness :
    (([⟨0, 0⟩, ⟨1, 1⟩, ⟨2, 2⟩, ⟨3, 3⟩, ⟨4, 0⟩] : List Card).Nodup ∧
      (∀ c ∈ ([⟨0, 0⟩, ⟨1, 1⟩, ⟨2, 2⟩, ⟨3, 3⟩, ⟨4, 0⟩] : List Card), validCard c) ∧
      ([⟨0, 0⟩, ⟨1, 1⟩, ⟨2, 2⟩, ⟨3, 3⟩, ⟨4, 0⟩] : List Card).length ≤ 7) ∧
    (p0NumCards (hand2OfCards [⟨0, 0⟩, ⟨1, 1⟩, ⟨2, 2⟩, ⟨3, 3⟩, ⟨4, 0⟩]) =
        ([⟨0, 0⟩, ⟨1, 1⟩, ⟨2, 2⟩, ⟨3, 3⟩, ⟨4, 0⟩] : List Card).length ∧
      (p0AssertOk (hand2OfCards [⟨0, 0⟩, ⟨1, 1⟩, ⟨2, 2⟩, ⟨3, 3⟩, ⟨4, 0⟩]) ↔
        ([⟨0, 0⟩, ⟨1, 1⟩, ⟨2, 2⟩, ⟨3, 3⟩, ⟨4, 0⟩] : List Card).length = 5 ∨
          ([⟨0, 0⟩, ⟨1, 1⟩, ⟨2, 2⟩, ⟨3, 3⟩, ⟨4, 0⟩] : List Card).length = 7)) :=
  ⟨⟨by decide, by decide, by decide⟩,
    numCards_correct_assert_iff [⟨0, 0⟩, ⟨1, 1⟩, ⟨2, 2⟩, ⟨3, 3⟩, ⟨4, 0⟩]
      (by decide) (by decide) (by decide)⟩


theorem getCardsAux_multiset (bsr : Nat → Nat)
    (hbsr : ∀ n, n ≠ 0 → n < 2 ^ 64 → bsr n = Nat.log2 n) :
    ∀ (f : Nat) (S : Finset Nat), S ⊆ Finset.range 64 → S.card ≤ f →
      (getCardsAux bsr f (bitSum S) : Multiset Card) =
        S.val.map (fun b => Card.mk (b % 16) (b / 16)) := by
  intro f
  induction f with
  | zero =>
    intro S hS hf
    have : S = ∅ := Finset.card_eq_zero.1 (by omega)
    subst this
    rfl
  | succ f ih =>
    intro S hS hf
    by_cases hne : S = ∅
    · subst hne
      rfl
    · have hne' : S.Nonempty := Finset.nonempty_of_ne_empty hne
      set M := S.max' hne' with hMdef
      have hMS : M ∈ S := S.max'_mem hne'
      have hM64 : M < 64 := Finset.mem_range.1 (hS hMS)
      have hlt : bitSum S < 2 ^ 64 := bitSum_lt S 64 hS
      have hb : bsr (bitSum S) = M := by
        rw [hbsr (bitSum S) (bitSum_ne_zero S hne') hlt, log2_bitSum S hne']
      rw [getCardsAux, if_pos (bitSum_ne_zero S hne')]
      simp only [hb]
      have hclear : bitSum S &&& (0xFFFFFFFFFFFFFFFF ^^^ ((1 <<< M) % 2 ^ 64)) =
          bitSum (S.erase M) := by
        rw [Nat.shiftLeft_eq, Nat.one_mul,
          Nat.mod_eq_of_lt (Nat.pow_lt_pow_right (by norm_num) hM64),
          show (2 : Nat) ^ M = bitSum {M} from (Finset.sum_singleton _ _).symm,
          show (0xFFFFFFFFFFFFFFFF : Nat) = 2 ^ 64 - 1 from by norm_num,
          clear_bitSum S {M} 64 hS]
        congr 1
        ext e
        simp [Finset.mem_sdiff, Finset.mem_erase, Finset.mem_singleton, and_comm]
      rw [hclear]
      have hcons : ((Card.mk (M % 16) (M / 16) :: getCardsAux bsr f (bitSum (S.erase M)) :
          List Card) : Multiset Card) =
          Card.mk (M % 16) (M / 16) ::ₘ
            (getCardsAux bsr f (bitSum (S.erase M)) : Multiset Card) := rfl
      rw [hcons, ih (S.erase M) (fun e he => hS (Finset.mem_of_mem_erase he))
        (by rw [Finset.card_erase_of_mem hMS]; omega),
        Finset.erase_val]
      conv_rhs => rw [← Multiset.cons_erase (Finset.mem_def.1 hMS), Multiset.map_cons]


theorem cardPos_lt (c : Card) (hc : validCard c) : cardPos c < 64 := by
  rw [cardPos]
  have h1 := hc.1
  have h2 := hc.2
  omega

theorem masked_v_eq_bitSum_pos (cs : List Card) (hnd : cs.Nodup)
    (hval : ∀ c ∈ cs, validCard c) (hlen : cs.length ≤ 7) :
    hand2OfCards cs &&& 0x1FFF1FFF1FFF1FFF = bitSum (cs.toFinset.image cardPos) := by
  have hsm : ∀ s, bitSum (suitRanks cs s) < 2 ^ 16 := by
    intro s
    calc bitSum (suitRanks cs s) < 2 ^ 13 := bitSum_lt _ _ (Finset.filter_subset _ _)
      _ < 2 ^ 16 := by norm_num
  have key : ∀ s, s < 4 → ∀ r, r < 16 →
      (decide (r ∈ suitRanks cs s)) =
        decide ((16 * s + r) ∈ cs.toFinset.image cardPos) := by
    intro s hs r hr
    rw [decide_eq_decide]
    simp only [suitRanks, Finset.mem_filter, Finset.mem_range, Finset.mem_image,
      List.mem_toFinset]
    constructor
    · rintro ⟨hr13, hmem⟩
      refine ⟨Card.mk r s, hmem, ?_⟩
      rw [cardPos]
    · rintro ⟨⟨cr, csu⟩, hmem, hpos⟩
      rw [cardPos] at hpos
      simp only at hpos
      have hvc := hval _ hmem
      have hcr := hvc.1
      have hcs := hvc.2
      have heq : csu = s ∧ cr = r := by
        simp only [validCard] at hvc
        omega
      rcases heq with ⟨hc1, hc2⟩
      subst hc1
      subst hc2
      exact ⟨hcr, hmem⟩
  rw [masked_v_lanes cs hnd hval hlen]
  apply Nat.eq_of_testBit_eq
  intro j
  rw [testBit_four_lanes (hsm 0) (hsm 1) (hsm 2) (hsm 3), testBit_bitSum]
  by_cases c0 : j < 16
  · rw [if_pos c0, testBit_bitSum]
    have := key 0 (by norm_num) j c0
    rw [show 16 * 0 + j = j from by omega] at this
    exact this
  · rw [if_neg c0]
    by_cases c1 : j < 32
    · rw [if_pos c1, testBit_bitSum]
      rw [testBit_bitSum]
      have := key 1 (by norm_num) (j - 16) (by omega)
      rw [show 16 * 1 + (j - 16) = j from by omega] at this
      exact this
    · rw [if_neg c1]
      by_cases c2 : j < 48
      · rw [if_pos c2, testBit_bitSum]
        rw [testBit_bitSum]
        have := key 2 (by norm_num) (j - 32) (by omega)
        rw [show 16 * 2 + (j - 32) = j from by omega] at this
        exact this
      · rw [if_neg c2]
        by_cases c3 : j < 64
        · rw [if_pos c3, testBit_bitSum]
          rw [testBit_bitSum]
          have := key 3 (by norm_num) (j - 48) (by omega)
          rw [show 16 * 3 + (j - 48) = j from by omega] at this
          exact this
        · rw [if_neg c3]
          have hnot : j ∉ cs.toFinset.image cardPos := by
            rw [Finset.mem_image]
            rintro ⟨c, hc, rfl⟩
            exact c3 (cardPos_lt c (hval c (List.mem_toFinset.1 hc)))
          rw [testBit_bitSum]
          simp [hnot]

/-- C8.  Round trip: decomposing the packed hand built from any list
of 1 to 7 pairwise-distinct well-formed cards (`Hand::GetCards` after
`Hand2::Hand2(cards, n)`) returns exactly as many cards as were put
in, and the returned cards are a permutation (equal multiset) of the
input, whatever the input order. -/
theorem getCards_roundtrip (cs : List Card) (hnd : cs.Nodup)
    (hval : ∀ c ∈ cs, validCard c) (hlen1 : 1 ≤ cs.length) (hlen : cs.length ≤ 7) :
    (GetCards (hand2OfCards cs)).length = cs.length ∧
      (GetCards (hand2OfCards cs)).Perm cs := by
  have himg_sub : cs.toFinset.image cardPos ⊆ Finset.range 64 := by
    intro j hj
    rw [Finset.mem_image] at hj
    obtain ⟨c, hc, rfl⟩ := hj
    exact Finset.mem_range.2 (cardPos_lt c (hval c (List.mem_toFinset.1 hc)))
  have hinj : Set.InjOn cardPos cs.toFinset := by
    rintro ⟨r1, s1⟩ hc1 ⟨r2, s2⟩ hc2 he
    rw [Finset.mem_coe, List.mem_toFinset] at hc1 hc2
    have h1 := hval _ hc1
    have h2 := hval _ hc2
    simp only [validCard] at h1 h2
    rw [cardPos, cardPos] at he
    simp only at he
    have : r1 = r2 ∧ s1 = s2 := by omega
    rw [this.1, this.2]
  have hcard : (cs.toFinset.image cardPos).card = cs.length := by
    rw [Finset.card_image_of_injOn hinj, List.toFinset_card_of_nodup hnd]
  have hmul := getCardsAux_multiset bit_scan_reverse
    (fun n _ h => bit_scan_reverse_eq_log2 n h) 52
    (cs.toFinset.image cardPos) himg_sub (by omega)
  have hmain : (GetCards (hand2OfCards cs) : Multiset Card) = (cs : Multiset Card) := by
    rw [GetCards, masked_v_eq_bitSum_pos cs hnd hval hlen, hmul]
    have himgval : (cs.toFinset.image cardPos).val = cs.toFinset.val.map cardPos := by
      rw [Finset.image_val, Multiset.dedup_eq_self.2]
      exact Multiset.Nodup.map_on (fun c hc d hd he => hinj (Finset.mem_coe.2 hc)
        (Finset.mem_coe.2 hd) he) cs.toFinset.nodup
    rw [himgval, Multiset.map_map]
    simp only [Function.comp_def]
    have hid : ∀ c ∈ cs.toFinset.val, (Card.mk (cardPos c % 16) (cardPos c / 16)) = c := by
      rintro ⟨r, s⟩ hc
      have hvc := hval _ (List.mem_toFinset.1 hc)
      simp only [validCard] at hvc
      rw [cardPos]
      simp only
      congr 1
      · omega
      · omega
    rw [Multiset.map_congr rfl hid, Multiset.map_id']
    have : cs.toFinset.val = (cs.dedup : Multiset Card) := rfl
    rw [this, List.dedup_eq_self.2 hnd]
  constructor
  · have := congrArg Multiset.card hmain
    simpa using this
  · exact Multiset.coe_eq_coe.1 hmain


theorem getCards_roundtrip_witness :
    (GetCards (hand2OfCards sixCardHand)).length = sixCardHand.length ∧
      (GetCards (hand2OfCards sixCardHand)).Perm sixCardHand :=
  getCards_roundtrip sixCardHand (by decide) (by decide) (by decide) (by decide)


theorem clearBits_bitSum (S M : Finset Nat) (hS : S ⊆ Finset.range 32) :
    clearBits (bitSum S) (bitSum M) = bitSum (S \ M) := by
  rw [clearBits, show (0xFFFFFFFF : Nat) = 2 ^ 32 - 1 from by norm_num]
  exact clear_bitSum S M 32 hS

theorem bitSum_singleton (p : Nat) : bitSum {p} = 2 ^ p := by
  simp [bitSum]

theorem topBits_one (S : Finset Nat) (h : S.Nonempty) : topBits 1 S = {S.max' h} := by
  rw [topBits_insert_max 0 S h, topBits_zero]
  rfl

theorem ranksAtLeast_subset_range (cs : List Card) (k : Nat) :
    ranksAtLeast cs k ⊆ Finset.range 13 := Finset.filter_subset _ _

theorem ranksAtLeast_subset_sixteen (cs : List Card) (k : Nat) :
    ranksAtLeast cs k ⊆ Finset.range 16 :=
  subset_trans (ranksAtLeast_subset_range cs k)
    (Finset.range_subset.2 (by norm_num))

theorem ranksAtLeast_subset_thirtytwo (cs : List Card) (k : Nat) :
    ranksAtLeast cs k ⊆ Finset.range 32 :=
  subset_trans (ranksAtLeast_subset_range cs k)
    (Finset.range_subset.2 (by norm_num))

theorem ranksAtLeast_mono (cs : List Card) {k l : Nat} (hkl : k ≤ l) :
    ranksAtLeast cs l ⊆ ranksAtLeast cs k := by
  intro r hr
  rw [ranksAtLeast, Finset.mem_filter] at hr ⊢
  exact ⟨hr.1, le_trans hkl hr.2⟩

theorem sum_rankCount (cs : List Card) (hval : ∀ c ∈ cs, validCard c) :
    ∑ r in Finset.range 13, rankCount cs r = cs.length := by
  induction cs with
  | nil => simp [rankCount]
  | cons c cs ih =>
    have hval' : ∀ d ∈ cs, validCard d := fun d hd => hval d (List.mem_cons_of_mem c hd)
    have hcr : c.rank < 13 := (hval c (List.mem_cons_self c cs)).1
    have hstep : ∀ r, rankCount (c :: cs) r = rankCount cs r + if c.rank = r then 1 else 0 := by
      intro r
      rw [rankCount, rankCount, List.countP_cons]
      by_cases h : c.rank = r <;> simp [h]
    simp only [hstep]
    rw [Finset.sum_add_distrib, ih hval', Finset.sum_ite_eq (Finset.range 13) c.rank
      (fun _ => 1), if_pos (Finset.mem_range.2 hcr)]
    simp [List.length_cons]

theorem rankCount_le_four (cs : List Card) (hnd : cs.Nodup)
    (hval : ∀ c ∈ cs, validCard c) (r : Nat) : rankCount cs r ≤ 4 := by
  rw [rankCount_eq_suit_toNat cs hnd hval r]
  have hb : ∀ b : Bool, b.toNat ≤ 1 := by decide
  have h0 := hb (decide (Card.mk r 0 ∈ cs))
  have h1 := hb (decide (Card.mk r 1 ∈ cs))
  have h2 := hb (decide (Card.mk r 2 ∈ cs))
  have h3 := hb (decide (Card.mk r 3 ∈ cs))
  omega

theorem length_eq_sum_atLeast (cs : List Card) (hnd : cs.Nodup)
    (hval : ∀ c ∈ cs, validCard c) :
    cs.length = (ranksAtLeast cs 1).card + (ranksAtLeast cs 2).card +
      (ranksAtLeast cs 3).card + (ranksAtLeast cs 4).card := by
  have hcard : ∀ k, (ranksAtLeast cs k).card =
      ∑ r in Finset.range 13, if k ≤ rankCount cs r then 1 else 0 := by
    intro k
    rw [ranksAtLeast, Finset.card_filter]
  rw [← sum_rankCount cs hval, hcard 1, hcard 2, hcard 3, hcard 4,
    ← Finset.sum_add_distrib, ← Finset.sum_add_distrib, ← Finset.sum_add_distrib]
  apply Finset.sum_congr rfl
  intro r _
  have h4 := rankCount_le_four cs hnd hval r
  set n := rankCount cs r with hn
  interval_cases n <;> decide

theorem bitSum_union_disjoint (A B : Finset Nat) (h : Disjoint A B) :
    bitSum (A ∪ B) = bitSum A + bitSum B := by
  rw [bitSum, bitSum, bitSum, Finset.sum_union h]

theorem bitSum_range (m : Nat) : bitSum (Finset.range m) = 2 ^ m - 1 := by
  induction m with
  | zero => rfl
  | succ m ih =>
    rw [bitSum, Finset.sum_range_succ, ← bitSum, ih]
    have : 1 ≤ 2 ^ m := Nat.one_le_two_pow
    have : 2 ^ (m + 1) = 2 * 2 ^ m := by ring
    omega

theorem and_sub_one_bitSum (S : Finset Nat) (h : S.Nonempty) :
    bitSum S &&& (bitSum S - 1) = bitSum (S.erase (S.min' h)) := by
  have hmem := S.min'_mem h
  have hgt : ∀ x ∈ S.erase (S.min' h), S.min' h < x := by
    intro x hx
    rw [Finset.mem_erase] at hx
    exact lt_of_le_of_ne (S.min'_le x hx.2) (Ne.symm hx.1)
  have hdisj : Disjoint (S.erase (S.min' h)) (Finset.range (S.min' h)) := by
    rw [Finset.disjoint_right]
    intro x hx hxe
    exact absurd (hgt x hxe) (by rw [Finset.mem_range] at hx; omega)
  have hdecomp : bitSum S = bitSum (S.erase (S.min' h)) + 2 ^ S.min' h := by
    rw [bitSum, bitSum, Finset.sum_erase_add S _ hmem]
  have hsub : bitSum S - 1 = bitSum (S.erase (S.min' h) ∪ Finset.range (S.min' h)) := by
    rw [bitSum_union_disjoint _ _ hdisj, bitSum_range]
    have : 1 ≤ 2 ^ S.min' h := Nat.one_le_two_pow
    omega
  rw [hsub, land_bitSum]
  congr 1
  ext x
  rw [Finset.mem_inter, Finset.mem_union, Finset.mem_erase, Finset.mem_range]
  constructor
  · rintro ⟨hxS, hor | hor⟩
    · exact hor
    · exact absurd (S.min'_le x hxS) (by omega)
  · intro hx
    exact ⟨hx.2, Or.inl hx⟩

theorem topBits_erase_min (k : Nat) (S : Finset Nat) (h : S.Nonempty)
    (hcard : k < S.card) : topBits k S = topBits k (S.erase (S.min' h)) := by
  have hgt : ∀ x ∈ S, x ≠ S.min' h → S.min' h < x := by
    intro x hx hne
    exact lt_of_le_of_ne (S.min'_le x hx) (Ne.symm hne)
  ext r
  rw [topBits, topBits, Finset.mem_filter, Finset.mem_filter, Finset.mem_erase]
  constructor
  · rintro ⟨hrS, hcnt⟩
    have hrne : r ≠ S.min' h := by
      intro he
      have hfilt : S.filter (fun s => r < s) = S.erase r := by
        ext x
        rw [Finset.mem_filter, Finset.mem_erase]
        constructor
        · rintro ⟨hx, hlt⟩
          exact ⟨by omega, hx⟩
        · rintro ⟨hne, hx⟩
          refine ⟨hx, ?_⟩
          rw [he]
          exact hgt x hx (he ▸ hne)
      rw [hfilt, Finset.card_erase_of_mem hrS] at hcnt
      omega
    refine ⟨⟨hrne, hrS⟩, ?_⟩
    calc ((S.erase (S.min' h)).filter (fun s => r < s)).card
        ≤ (S.filter (fun s => r < s)).card :=
          Finset.card_le_card (Finset.filter_subset_filter _ (Finset.erase_subset _ _))
      _ < k := hcnt
  · rintro ⟨⟨hrne, hrS⟩, hcnt⟩
    refine ⟨hrS, ?_⟩
    have : S.filter (fun s => r < s) = (S.erase (S.min' h)).filter (fun s => r < s) := by
      ext x
      rw [Finset.mem_filter, Finset.mem_filter, Finset.mem_erase]
      constructor
      · rintro ⟨hx, hlt⟩
        have : x ≠ S.min' h := by
          intro he
          subst he
          exact absurd (hgt r hrS hrne) (by omega)
        exact ⟨⟨this, hx⟩, hlt⟩
      · rintro ⟨⟨_, hx⟩, hlt⟩
        exact ⟨hx, hlt⟩
    rw [this]
    exact hcnt

theorem double_clear_eq_topBits (k : Nat) (S : Finset Nat) (hcard : S.card = k + 2) :
    (bitSum S &&& (bitSum S - 1)) &&& ((bitSum S &&& (bitSum S - 1)) - 1) =
      bitSum (topBits k S) := by
  have h1 : S.Nonempty := Finset.card_pos.1 (by omega)
  have hc1 : (S.erase (S.min' h1)).card = k + 1 := by
    rw [Finset.card_erase_of_mem (S.min'_mem h1)]
    omega
  have h2 : (S.erase (S.min' h1)).Nonempty := Finset.card_pos.1 (by omega)
  have hc2 : ((S.erase (S.min' h1)).erase ((S.erase (S.min' h1)).min' h2)).card = k := by
    rw [Finset.card_erase_of_mem ((S.erase (S.min' h1)).min'_mem h2)]
    omega
  rw [and_sub_one_bitSum S h1, and_sub_one_bitSum _ h2,
    topBits_erase_min k S h1 (by omega), topBits_erase_min k _ h2 (by omega),
    topBits_eq_self _ _ (by omega)]

theorem e2_onePair_spec (cs : List Card) (hnd : cs.Nodup)
    (hval : ∀ c ∈ cs, validCard c) (hlen : cs.length ≤ 7)
    (hcat : (EvaluateHand2 (hand2OfCards cs)).category = OnePair) :
    ∃ p, ranksAtLeast cs 2 = {p} ∧ ranksAtLeast cs 3 = ∅ ∧ ranksAtLeast cs 4 = ∅ ∧
      (EvaluateHand2 (hand2OfCards cs)).master = 2 ^ p ∧
      (EvaluateHand2 (hand2OfCards cs)).kicker =
        KeepHighestBitsSet 3 (bitSum ((ranksAtLeast cs 1).erase p)) := by
  have hm := rankMasks_eq cs hnd hval hlen
  rw [EvaluateHand2, hm] at hcat
  simp only [apply_ite Strength.category] at hcat
  split_ifs at hcat with h1 h2 h3 h4 h5 h6 h7 h8
  all_goals try (simp only [StraightFlush, FourOfAKind, FullHouse, Flush, Straight,
    ThreeOfAKind, TwoPair, OnePair, HighCard] at hcat)
  all_goals try omega
  have hne : (ranksAtLeast cs 2).Nonempty := by
    rw [Finset.nonempty_iff_ne_empty]
    intro he
    rw [he] at h7
    exact h7 rfl
  have hsub2 := ranksAtLeast_subset_sixteen cs 2
  have hmax : KeepHighestBitSet (bitSum (ranksAtLeast cs 2)) =
      2 ^ ((ranksAtLeast cs 2).max' hne) := by
    rw [KeepHighestBitSet, KeepHighestBitsSet_eq_topBits 1 _ hsub2
      (Finset.card_pos.2 hne), topBits_one _ hne, bitSum_singleton]
  have hsingle : ranksAtLeast cs 2 = {(ranksAtLeast cs 2).max' hne} := by
    rw [hmax, ← bitSum_singleton, clearBits_bitSum _ _ (ranksAtLeast_subset_thirtytwo cs 2)]
      at h8
    have hempty : ranksAtLeast cs 2 \ {(ranksAtLeast cs 2).max' hne} = ∅ := by
      by_contra hne2
      exact h8 (bitSum_ne_zero _ (Finset.nonempty_iff_ne_empty.2 hne2))
    have hsub : ranksAtLeast cs 2 ⊆ {(ranksAtLeast cs 2).max' hne} :=
      Finset.sdiff_eq_empty_iff_subset.1 hempty
    exact Finset.Subset.antisymm hsub
      (Finset.singleton_subset_iff.2 ((ranksAtLeast cs 2).max'_mem hne))
  have h3e : ranksAtLeast cs 3 = ∅ := by
    by_contra hne3
    exact h6 (bitSum_ne_zero _ (Finset.nonempty_iff_ne_empty.2 hne3))
  have h4e : ranksAtLeast cs 4 = ∅ := by
    by_contra hne4
    exact h2 (bitSum_ne_zero _ (Finset.nonempty_iff_ne_empty.2 hne4))
  refine ⟨(ranksAtLeast cs 2).max' hne, hsingle, h3e, h4e, ?_, ?_⟩
  · rw [EvaluateHand2, hm]
    simp only
    rw [if_neg h1, if_neg h2, if_neg h3, if_neg h4, if_neg h5, if_neg h6, if_pos h7,
      if_neg h8]
    exact hmax
  · rw [EvaluateHand2, hm]
    simp only
    rw [if_neg h1, if_neg h2, if_neg h3, if_neg h4, if_neg h5, if_neg h6, if_pos h7,
      if_neg h8]
    simp only [hmax, ← bitSum_singleton,
      clearBits_bitSum _ _ (ranksAtLeast_subset_thirtytwo cs 1),
      Finset.sdiff_singleton_eq_erase]

theorem e2_highCard_spec (cs : List Card) (hnd : cs.Nodup)
    (hval : ∀ c ∈ cs, validCard c) (hlen : cs.length ≤ 7)
    (hcat : (EvaluateHand2 (hand2OfCards cs)).category = HighCard) :
    ranksAtLeast cs 2 = ∅ ∧
      (EvaluateHand2 (hand2OfCards cs)).master =
        KeepHighestBitsSet 5 (bitSum (ranksAtLeast cs 1)) ∧
      (EvaluateHand2 (hand2OfCards cs)).kicker = 0 := by
  have hm := rankMasks_eq cs hnd hval hlen
  rw [EvaluateHand2, hm] at hcat
  simp only [apply_ite Strength.category] at hcat
  split_ifs at hcat with h1 h2 h3 h4 h5 h6 h7 h8
  all_goals try (simp only [StraightFlush, FourOfAKind, FullHouse, Flush, Straight,
    ThreeOfAKind, TwoPair, OnePair, HighCard] at hcat)
  all_goals try omega
  have h2e : ranksAtLeast cs 2 = ∅ := by
    by_contra hne2
    exact h7 (bitSum_ne_zero _ (Finset.nonempty_iff_ne_empty.2 hne2))
  refine ⟨h2e, ?_, ?_⟩ <;>
    (rw [EvaluateHand2, hm]
     simp only
     rw [if_neg h1, if_neg h2, if_neg h3, if_neg h4, if_neg h5, if_neg h6, if_neg h7])

theorem e0_onePair_spec (bsr : Nat → Nat)
    (hbsr : ∀ n, n ≠ 0 → n < 2 ^ 64 → bsr n = Nat.log2 n)
    (cs : List Card) (hnd : cs.Nodup)
    (hval : ∀ c ∈ cs, validCard c) (hlen : cs.length ≤ 7)
    (hcat : (EvaluateHand bsr (hand2OfCards cs)).category = OnePair) :
    ∃ p, ranksAtLeast cs 2 = {p} ∧ ranksAtLeast cs 3 = ∅ ∧ ranksAtLeast cs 4 = ∅ ∧
      (EvaluateHand bsr (hand2OfCards cs)).master = 2 ^ p ∧
      (EvaluateHand bsr (hand2OfCards cs)).kicker =
        (if cs.length = 7 then
          (bitSum ((ranksAtLeast cs 1).erase p) &&&
              (bitSum ((ranksAtLeast cs 1).erase p) - 1)) &&&
            ((bitSum ((ranksAtLeast cs 1).erase p) &&&
              (bitSum ((ranksAtLeast cs 1).erase p) - 1)) - 1)
        else bitSum ((ranksAtLeast cs 1).erase p)) := by
  have hbsr16 : ∀ n, n ≠ 0 → n < 2 ^ 16 → bsr n = Nat.log2 n :=
    fun n h1 h2 => hbsr n h1 (lt_trans h2 (by norm_num))
  have hm := rankMasks_eq cs hnd hval hlen
  have hn := p0NumCards_eq cs hnd hval hlen
  simp only [EvaluateHand, hm, hn, apply_ite Strength.category] at hcat
  split_ifs at hcat with h1 h2 h3 h4 h5 h6 h7 h8
  all_goals try (simp only [StraightFlush, FourOfAKind, FullHouse, Flush, Straight,
    ThreeOfAKind, TwoPair, OnePair, HighCard] at hcat)
  all_goals try omega
  have hne : (ranksAtLeast cs 2).Nonempty := by
    rw [Finset.nonempty_iff_ne_empty]
    intro he
    rw [he] at h7
    exact h7 rfl
  have hsub2 := ranksAtLeast_subset_sixteen cs 2
  have hmax : KeepHighestBitsSetB bsr 1 (bitSum (ranksAtLeast cs 2)) =
      2 ^ ((ranksAtLeast cs 2).max' hne) := by
    rw [KeepHighestBitsSetB_eq_topBits bsr hbsr16 1 _ hsub2
      (Finset.card_pos.2 hne), topBits_one _ hne, bitSum_singleton]
  have hsingle : ranksAtLeast cs 2 = {(ranksAtLeast cs 2).max' hne} := by
    rw [hmax, ← bitSum_singleton, clearBits_bitSum _ _ (ranksAtLeast_subset_thirtytwo cs 2)]
      at h8
    have hempty : ranksAtLeast cs 2 \ {(ranksAtLeast cs 2).max' hne} = ∅ := by
      by_contra hne2
      exact h8 (bitSum_ne_zero _ (Finset.nonempty_iff_ne_empty.2 hne2))
    have hsub : ranksAtLeast cs 2 ⊆ {(ranksAtLeast cs 2).max' hne} :=
      Finset.sdiff_eq_empty_iff_subset.1 hempty
    exact Finset.Subset.antisymm hsub
      (Finset.singleton_subset_iff.2 ((ranksAtLeast cs 2).max'_mem hne))
  have h3e : ranksAtLeast cs 3 = ∅ := by
    by_contra hne3
    exact h6 (bitSum_ne_zero _ (Finset.nonempty_iff_ne_empty.2 hne3))
  have h4e : ranksAtLeast cs 4 = ∅ := by
    by_contra hne4
    exact h2 (bitSum_ne_zero _ (Finset.nonempty_iff_ne_empty.2 hne4))
  refine ⟨(ranksAtLeast cs 2).max' hne, hsingle, h3e, h4e, ?_, ?_⟩
  · simp only [EvaluateHand, hm, hn]
    rw [if_neg h1, if_neg h2, if_neg h3, if_neg h4, if_neg h5, if_neg h6, if_pos h7,
      if_neg h8]
    exact hmax
  · simp only [EvaluateHand, hm, hn]
    rw [if_neg h1, if_neg h2, if_neg h3, if_neg h4, if_neg h5, if_neg h6, if_pos h7,
      if_neg h8]
    simp only [hmax, ← bitSum_singleton,
      clearBits_bitSum _ _ (ranksAtLeast_subset_thirtytwo cs 1),
      Finset.sdiff_singleton_eq_erase]

theorem e0_highCard_spec (bsr : Nat → Nat)
    (hbsr : ∀ n, n ≠ 0 → n < 2 ^ 64 → bsr n = Nat.log2 n)
    (cs : List Card) (hnd : cs.Nodup)
    (hval : ∀ c ∈ cs, validCard c) (hlen : cs.length ≤ 7)
    (hcat : (EvaluateHand bsr (hand2OfCards cs)).category = HighCard) :
    ranksAtLeast cs 2 = ∅ ∧
      (EvaluateHand bsr (hand2OfCards cs)).master =
        (if cs.length = 7 then
          (bitSum (ranksAtLeast cs 1) &&& (bitSum (ranksAtLeast cs 1) - 1)) &&&
            ((bitSum (ranksAtLeast cs 1) &&& (bitSum (ranksAtLeast cs 1) - 1)) - 1)
        else bitSum (ranksAtLeast cs 1)) ∧
      (EvaluateHand bsr (hand2OfCards cs)).kicker = 0 := by
  have hm := rankMasks_eq cs hnd hval hlen
  have hn := p0NumCards_eq cs hnd hval hlen
  simp only [EvaluateHand, hm, hn, apply_ite Strength.category] at hcat
  split_ifs at hcat with h1 h2 h3 h4 h5 h6 h7 h8
  all_goals try (simp only [StraightFlush, FourOfAKind, FullHouse, Flush, Straight,
    ThreeOfAKind, TwoPair, OnePair, HighCard] at hcat)
  all_goals try omega
  have h2e : ranksAtLeast cs 2 = ∅ := by
    by_contra hne2
    exact h7 (bitSum_ne_zero _ (Finset.nonempty_iff_ne_empty.2 hne2))
  refine ⟨h2e, ?_, ?_⟩ <;>
    (simp only [EvaluateHand, hm, hn]
     rw [if_neg h1, if_neg h2, if_neg h3, if_neg h4, if_neg h5, if_neg h6, if_neg h7])


/-- C7.  For every well-formed 5- or 7-card hand classified as one
pair — by the current evaluator `EvaluateHand2` or by the earlier
`EvaluateHand` under any interpretation of `bit_scan_reverse` — the
master is the single paired rank and the kicker is exactly the
highest 3 remaining present ranks; when classified as high card, the
master is exactly the highest 5 present ranks with zero kicker.
Master ranks claimed plus kicker ranks kept therefore always total a
5-card-equivalent hand, for 5- and 7-card inputs alike. -/
theorem onePair_highCard_kicker_trimming (cs : List Card) (hnd : cs.Nodup)
    (hval : ∀ c ∈ cs, validCard c) (hlen : cs.length = 5 ∨ cs.length = 7)
    (bsr : Nat → Nat) (hbsr : ∀ n, n ≠ 0 → n < 2 ^ 64 → bsr n = Nat.log2 n) :
    ((EvaluateHand2 (hand2OfCards cs)).category = OnePair →
      ∃ p, ranksAtLeast cs 2 = {p} ∧
        (EvaluateHand2 (hand2OfCards cs)).master = 2 ^ p ∧
        (EvaluateHand2 (hand2OfCards cs)).kicker =
          bitSum (topBits 3 ((ranksAtLeast cs 1).erase p)) ∧
        (topBits 3 ((ranksAtLeast cs 1).erase p)).card = 3) ∧
    ((EvaluateHand2 (hand2OfCards cs)).category = HighCard →
      (EvaluateHand2 (hand2OfCards cs)).master = bitSum (topBits 5 (ranksAtLeast cs 1)) ∧
      (topBits 5 (ranksAtLeast cs 1)).card = 5 ∧
      (EvaluateHand2 (hand2OfCards cs)).kicker = 0) ∧
    ((EvaluateHand bsr (hand2OfCards cs)).category = OnePair →
      ∃ p, ranksAtLeast cs 2 = {p} ∧
        (EvaluateHand bsr (hand2OfCards cs)).master = 2 ^ p ∧
        (EvaluateHand bsr (hand2OfCards cs)).kicker =
          bitSum (topBits 3 ((ranksAtLeast cs 1).erase p)) ∧
        (topBits 3 ((ranksAtLeast cs 1).erase p)).card = 3) ∧
    ((EvaluateHand bsr (hand2OfCards cs)).category = HighCard →
      (EvaluateHand bsr (hand2OfCards cs)).master = bitSum (topBits 5 (ranksAtLeast cs 1)) ∧
      (topBits 5 (ranksAtLeast cs 1)).card = 5 ∧
      (EvaluateHand bsr (hand2OfCards cs)).kicker = 0) := by
  have hlen7 : cs.length ≤ 7 := by rcases hlen with h | h <;> omega
  have hsum := length_eq_sum_atLeast cs hnd hval
  have hereasub : ∀ p, (ranksAtLeast cs 1).erase p ⊆ Finset.range 16 :=
    fun p => subset_trans (Finset.erase_subset _ _) (ranksAtLeast_subset_sixteen cs 1)
  refine ⟨?_, ?_, ?_, ?_⟩
  · intro hcat
    obtain ⟨p, h2s, h3e, h4e, hma, hki⟩ := e2_onePair_spec cs hnd hval hlen7 hcat
    have hpmem : p ∈ ranksAtLeast cs 1 :=
      ranksAtLeast_mono cs (by norm_num) (h2s ▸ Finset.mem_singleton_self p)
    rw [h2s, h3e, h4e, Finset.card_singleton, Finset.card_empty] at hsum
    have hcarde : ((ranksAtLeast cs 1).erase p).card = cs.length - 2 := by
      rw [Finset.card_erase_of_mem hpmem]
      omega
    have h3le : 3 ≤ ((ranksAtLeast cs 1).erase p).card := by
      rw [hcarde]
      omega
    refine ⟨p, h2s, hma, ?_, topBits_card 3 _ h3le⟩
    rw [hki, KeepHighestBitsSet_eq_topBits 3 _ (hereasub p) h3le]
  · intro hcat
    obtain ⟨h2e, hma, hki⟩ := e2_highCard_spec cs hnd hval hlen7 hcat
    have h3e : ranksAtLeast cs 3 = ∅ :=
      Finset.subset_empty.1 (h2e ▸ ranksAtLeast_mono cs (by norm_num))
    have h4e : ranksAtLeast cs 4 = ∅ :=
      Finset.subset_empty.1 (h2e ▸ ranksAtLeast_mono cs (by norm_num))
    rw [h2e, h3e, h4e, Finset.card_empty] at hsum
    have h5le : 5 ≤ (ranksAtLeast cs 1).card := by omega
    refine ⟨?_, topBits_card 5 _ h5le, hki⟩
    rw [hma, KeepHighestBitsSet_eq_topBits 5 _ (ranksAtLeast_subset_sixteen cs 1) h5le]
  · intro hcat
    obtain ⟨p, h2s, h3e, h4e, hma, hki⟩ := e0_onePair_spec bsr hbsr cs hnd hval hlen7 hcat
    have hpmem : p ∈ ranksAtLeast cs 1 :=
      ranksAtLeast_mono cs (by norm_num) (h2s ▸ Finset.mem_singleton_self p)
    rw [h2s, h3e, h4e, Finset.card_singleton, Finset.card_empty] at hsum
    have hcarde : ((ranksAtLeast cs 1).erase p).card = cs.length - 2 := by
      rw [Finset.card_erase_of_mem hpmem]
      omega
    have h3le : 3 ≤ ((ranksAtLeast cs 1).erase p).card := by
      rw [hcarde]
      omega
    refine ⟨p, h2s, hma, ?_, topBits_card 3 _ h3le⟩
    rw [hki]
    rcases hlen with h5 | h7
    · rw [if_neg (by omega), topBits_eq_self 3 _ (by omega)]
    · rw [if_pos h7, double_clear_eq_topBits 3 _ (by omega)]
  · intro hcat
    obtain ⟨h2e, hma, hki⟩ := e0_highCard_spec bsr hbsr cs hnd hval hlen7 hcat
    have h3e : ranksAtLeast cs 3 = ∅ :=
      Finset.subset_empty.1 (h2e ▸ ranksAtLeast_mono cs (by norm_num))
    have h4e : ranksAtLeast cs 4 = ∅ :=
      Finset.subset_empty.1 (h2e ▸ ranksAtLeast_mono cs (by norm_num))
    rw [h2e, h3e, h4e, Finset.card_empty] at hsum
    have h5le : 5 ≤ (ranksAtLeast cs 1).card := by omega
    refine ⟨?_, topBits_card 5 _ h5le, hki⟩
    rw [hma]
    rcases hlen with h5 | h7
    · rw [if_neg (by omega), topBits_eq_self 5 _ (by omega)]
    · rw [if_pos h7, double_clear_eq_topBits 5 _ (by omega)]

/-- Closed witness for C7 at the 5-card one-pair hand 2C 2D 5H 8S KC. -/
theorem onePair_highCard_kicker_trimming_witness :
    ((EvaluateHand2 (hand2OfCards pairHand)).category = OnePair →
      ∃ p, ranksAtLeast pairHand 2 = {p} ∧
        (EvaluateHand2 (hand2OfCards pairHand)).master = 2 ^ p ∧
        (EvaluateHand2 (hand2OfCards pairHand)).kicker =
          bitSum (topBits 3 ((ranksAtLeast pairHand 1).erase p)) ∧
        (topBits 3 ((ranksAtLeast pairHand 1).erase p)).card = 3) ∧
    ((EvaluateHand2 (hand2OfCards pairHand)).category = HighCard →
      (EvaluateHand2 (hand2OfCards pairHand)).master =
        bitSum (topBits 5 (ranksAtLeast pairHand 1)) ∧
      (topBits 5 (ranksAtLeast pairHand 1)).card = 5 ∧
      (EvaluateHand2 (hand2OfCards pairHand)).kicker = 0) ∧
    ((EvaluateHand bit_scan_reverse (hand2OfCards pairHand)).category = OnePair →
      ∃ p, ranksAtLeast pairHand 2 = {p} ∧
        (EvaluateHand bit_scan_reverse (hand2OfCards pairHand)).master = 2 ^ p ∧
        (EvaluateHand bit_scan_reverse (hand2OfCards pairHand)).kicker =
          bitSum (topBits 3 ((ranksAtLeast pairHand 1).erase p)) ∧
        (topBits 3 ((ranksAtLeast pairHand 1).erase p)).card = 3) ∧
    ((EvaluateHand bit_scan_reverse (hand2OfCards pairHand)).category = HighCard →
      (EvaluateHand bit_scan_reverse (hand2OfCards pairHand)).master =
        bitSum (topBits 5 (ranksAtLeast pairHand 1)) ∧
      (topBits 5 (ranksAtLeast pairHand 1)).card = 5 ∧
      (EvaluateHand bit_scan_reverse (hand2OfCards pairHand)).kicker = 0) :=
  onePair_highCard_kicker_trimming pairHand (by decide) (by decide)
    (Or.inl (by decide)) bit_scan_reverse
    (fun n h1 h2 => bit_scan_reverse_eq_log2 n h2)


theorem popcountAux_bitSum : ∀ (f : Nat) (S : Finset Nat), S ⊆ Finset.range f →
    popcountAux f (bitSum S) = S.card := by
  intro f
  induction f with
  | zero =>
    intro S hS
    have hSe : S = ∅ := Finset.subset_empty.1 (by simpa using hS)
    subst hSe
    rfl
  | succ f ih =>
    intro S hS
    have hmemT : ∀ i, i ∈ (S.erase 0).image (fun j => j - 1) ↔ i + 1 ∈ S := by
      intro i
      simp only [Finset.mem_image, Finset.mem_erase]
      constructor
      · rintro ⟨j, ⟨hj0, hjS⟩, rfl⟩
        rw [show j - 1 + 1 = j from by omega]
        exact hjS
      · intro h
        exact ⟨i + 1, ⟨by omega, h⟩, by omega⟩
    have hdiv : bitSum S / 2 = bitSum ((S.erase 0).image (fun j => j - 1)) := by
      apply Nat.eq_of_testBit_eq
      intro i
      rw [← Nat.testBit_succ, testBit_bitSum, testBit_bitSum, decide_eq_decide]
      exact (hmemT i).symm
    have hmod : bitSum S % 2 = if 0 ∈ S then 1 else 0 := by
      have h0 := testBit_bitSum S 0
      rw [Nat.testBit_zero] at h0
      by_cases h : 0 ∈ S
      · rw [if_pos h]
        simp [h] at h0
        omega
      · rw [if_neg h]
        simp [h] at h0
        omega
    have hTsub : (S.erase 0).image (fun j => j - 1) ⊆ Finset.range f := by
      intro i hi
      rw [hmemT] at hi
      have := Finset.mem_range.1 (hS hi)
      rw [Finset.mem_range]
      omega
    have hTcard : ((S.erase 0).image (fun j => j - 1)).card = (S.erase 0).card := by
      apply Finset.card_image_of_injOn
      intro a ha b hb hab
      rw [Finset.mem_coe, Finset.mem_erase] at ha hb
      simp only at hab
      omega
    rw [popcountAux, hdiv, ih _ hTsub, hmod, hTcard]
    by_cases h : 0 ∈ S
    · rw [Finset.card_erase_of_mem h, if_pos h]
      have := Finset.card_pos.2 ⟨0, h⟩
      omega
    · rw [Finset.erase_eq_of_not_mem h, if_neg h]
      omega

theorem popcount_bitSum (S : Finset Nat) (hS : S ⊆ Finset.range 64) :
    popcount (bitSum S) = S.card :=
  popcountAux_bitSum 64 S hS

theorem bitSum_bits (w x : Nat) (h : x < 2 ^ w) :
    bitSum ((Finset.range w).filter (fun i => x.testBit i)) = x := by
  apply Nat.eq_of_testBit_eq
  intro i
  rw [testBit_bitSum]
  by_cases hi : i < w
  · by_cases ht : x.testBit i <;>
      simp [Finset.mem_filter, Finset.mem_range, hi, ht]
  · have hz : x.testBit i = false :=
      Nat.testBit_lt_two_pow (lt_of_lt_of_le h
        (Nat.pow_le_pow_right (by norm_num) (by omega)))
    simp [Finset.mem_filter, Finset.mem_range, hi, hz]

theorem KeepHighestBitsSet_one (x : Nat) (hx : x ≠ 0) (hw : x < 2 ^ 13) :
    popcount (KeepHighestBitsSet 1 x) = 1 ∧ KeepHighestBitsSet 1 x < 2 ^ 13 := by
  have hb := bitSum_bits 13 x hw
  have hSsub : (Finset.range 13).filter (fun i => x.testBit i) ⊆ Finset.range 13 :=
    Finset.filter_subset _ _
  have hSne : ((Finset.range 13).filter (fun i => x.testBit i)).Nonempty := by
    rw [Finset.nonempty_iff_ne_empty]
    intro he
    rw [← hb, he] at hx
    exact hx rfl
  have hkh : KeepHighestBitsSet 1 x =
      2 ^ (((Finset.range 13).filter (fun i => x.testBit i)).max' hSne) := by
    conv_lhs => rw [← hb]
    rw [KeepHighestBitsSet_eq_topBits 1 _
      (subset_trans hSsub (Finset.range_subset.2 (by norm_num)))
      (Finset.card_pos.2 hSne), topBits_one _ hSne, bitSum_singleton]
  have hmax13 : ((Finset.range 13).filter (fun i => x.testBit i)).max' hSne < 13 :=
    Finset.mem_range.1 (hSsub (Finset.max'_mem _ hSne))
  constructor
  · rw [hkh, ← bitSum_singleton, popcount_bitSum _ (by
      intro i hi
      rw [Finset.mem_singleton] at hi
      rw [Finset.mem_range]
      omega), Finset.card_singleton]
  · rw [hkh]
    exact Nat.pow_lt_pow_right (by norm_num) hmax13

theorem straightMask_lt (x : Nat) (hx : x < 8192) : straightMask x < 8192 := by
  rw [show (8192 : Nat) = 2 ^ 13 from by norm_num]
  apply lt_two_pow_of_high_bits_false
  intro j hj
  rw [testBit_straightMask x hx j]
  exact straightAt_high x hx j hj

theorem card_suitRanks (cs : List Card) (hnd : cs.Nodup)
    (hval : ∀ c ∈ cs, validCard c) (s : Nat) :
    (suitRanks cs s).card = suitCount cs s := by
  rw [suitRanks_eq_image cs hval s, suitCount_eq_card cs hnd s]
  apply Finset.card_image_of_injOn
  rintro ⟨r1, s1⟩ h1 ⟨r2, s2⟩ h2 he
  rw [Finset.mem_coe, Finset.mem_filter] at h1 h2
  simp only at he h1 h2
  rw [h1.2, h2.2, he]

theorem ev2FlushMask_cases (cs : List Card) (hnd : cs.Nodup)
    (hval : ∀ c ∈ cs, validCard c) (hlen : cs.length ≤ 7) :
    ev2FlushMask (hand2OfCards cs) = 0 ∨
      ∃ s, s < 4 ∧ 5 ≤ suitCount cs s ∧
        ev2FlushMask (hand2OfCards cs) = bitSum (suitRanks cs s) := by
  by_cases h : ∀ s, s < 4 → suitCount cs s < 5
  · exact Or.inl (ev2FlushMask_none cs hnd hval hlen h)
  · push_neg at h
    obtain ⟨s, hs4, hs5⟩ := h
    exact Or.inr ⟨s, hs4, hs5, ev2FlushMask_flushed cs hnd hval hlen s hs4 hs5⟩

theorem ev2FlushMask_lt (cs : List Card) (hnd : cs.Nodup)
    (hval : ∀ c ∈ cs, validCard c) (hlen : cs.length ≤ 7) :
    ev2FlushMask (hand2OfCards cs) < 2 ^ 13 := by
  rcases ev2FlushMask_cases cs hnd hval hlen with h | ⟨s, _, _, h⟩
  · rw [h]
    norm_num
  · rw [h]
    exact bitSum_lt _ _ (Finset.filter_subset _ _)

theorem e2_cat_cases (cs : List Card) (hnd : cs.Nodup)
    (hval : ∀ c ∈ cs, validCard c) (hlen : cs.length ≤ 7) :
    (EvaluateHand2 (hand2OfCards cs)).category = StraightFlush ∨
    (EvaluateHand2 (hand2OfCards cs)).category = FourOfAKind ∨
    (EvaluateHand2 (hand2OfCards cs)).category = FullHouse ∨
    (EvaluateHand2 (hand2OfCards cs)).category = Flush ∨
    (EvaluateHand2 (hand2OfCards cs)).category = Straight ∨
    (EvaluateHand2 (hand2OfCards cs)).category = ThreeOfAKind ∨
    (EvaluateHand2 (hand2OfCards cs)).category = TwoPair ∨
    (EvaluateHand2 (hand2OfCards cs)).category = OnePair ∨
    (EvaluateHand2 (hand2OfCards cs)).category = HighCard := by
  have hm := rankMasks_eq cs hnd hval hlen
  rw [EvaluateHand2, hm]
  simp only [apply_ite Strength.category]
  split_ifs <;>
    simp [StraightFlush, FourOfAKind, FullHouse, Flush, Straight, ThreeOfAKind,
      TwoPair, OnePair, HighCard]

theorem e2_sf_spec (cs : List Card) (hnd : cs.Nodup)
    (hval : ∀ c ∈ cs, validCard c) (hlen : cs.length ≤ 7)
    (hcat : (EvaluateHand2 (hand2OfCards cs)).category = StraightFlush) :
    straightMask (ev2FlushMask (hand2OfCards cs)) ≠ 0 ∧
      (EvaluateHand2 (hand2OfCards cs)).master =
        KeepHighestBitSet (straightMask (ev2FlushMask (hand2OfCards cs))) ∧
      (EvaluateHand2 (hand2OfCards cs)).kicker = 0 := by
  have hm := rankMasks_eq cs hnd hval hlen
  rw [EvaluateHand2, hm] at hcat
  simp only [apply_ite Strength.category] at hcat
  split_ifs at hcat with h1 h2 h3 h4 h5 h6 h7 h8
  all_goals try (simp only [StraightFlush, FourOfAKind, FullHouse, Flush, Straight,
    ThreeOfAKind, TwoPair, OnePair, HighCard] at hcat)
  all_goals try omega
  refine ⟨h1.2, ?_, ?_⟩ <;>
    (rw [EvaluateHand2, hm]
     simp only
     rw [if_pos h1])

theorem e2_quads_spec (cs : List Card) (hnd : cs.Nodup)
    (hval : ∀ c ∈ cs, validCard c) (hlen : cs.length ≤ 7)
    (hcat : (EvaluateHand2 (hand2OfCards cs)).category = FourOfAKind) :
    (ranksAtLeast cs 4).Nonempty ∧
      (EvaluateHand2 (hand2OfCards cs)).master = bitSum (ranksAtLeast cs 4) ∧
      (EvaluateHand2 (hand2OfCards cs)).kicker =
        KeepHighestBitSet (bitSum (ranksAtLeast cs 1 \ ranksAtLeast cs 4)) := by
  have hm := rankMasks_eq cs hnd hval hlen
  rw [EvaluateHand2, hm] at hcat
  simp only [apply_ite Strength.category] at hcat
  split_ifs at hcat with h1 h2 h3 h4 h5 h6 h7 h8
  all_goals try (simp only [StraightFlush, FourOfAKind, FullHouse, Flush, Straight,
    ThreeOfAKind, TwoPair, OnePair, HighCard] at hcat)
  all_goals try omega
  have hne : (ranksAtLeast cs 4).Nonempty := by
    rw [Finset.nonempty_iff_ne_empty]
    intro he
    rw [he] at h2
    exact h2 rfl
  refine ⟨hne, ?_, ?_⟩ <;>
    (rw [EvaluateHand2, hm]
     simp only
     rw [if_neg h1, if_pos h2])
  rw [clearBits_bitSum _ _ (ranksAtLeast_subset_thirtytwo cs 1)]

theorem e2_fh_spec (cs : List Card) (hnd : cs.Nodup)
    (hval : ∀ c ∈ cs, validCard c) (hlen : cs.length ≤ 7)
    (hcat : (EvaluateHand2 (hand2OfCards cs)).category = FullHouse) :
    ∃ t, t ∈ ranksAtLeast cs 3 ∧
      ((ranksAtLeast cs 2).erase t).Nonempty ∧
      (EvaluateHand2 (hand2OfCards cs)).master = 2 ^ t ∧
      (EvaluateHand2 (hand2OfCards cs)).kicker =
        KeepHighestBitSet (bitSum ((ranksAtLeast cs 2).erase t)) := by
  have hm := rankMasks_eq cs hnd hval hlen
  rw [EvaluateHand2, hm] at hcat
  simp only [apply_ite Strength.category] at hcat
  split_ifs at hcat with h1 h2 h3 h4 h5 h6 h7 h8
  all_goals try (simp only [StraightFlush, FourOfAKind, FullHouse, Flush, Straight,
    ThreeOfAKind, TwoPair, OnePair, HighCard] at hcat)
  all_goals try omega
  have hne3 : (ranksAtLeast cs 3).Nonempty := by
    rw [Finset.nonempty_iff_ne_empty]
    intro he
    rw [he] at h3
    simp [bitSum] at h3
  have hmax3 : KeepHighestBitSet (bitSum (ranksAtLeast cs 3)) =
      2 ^ ((ranksAtLeast cs 3).max' hne3) := by
    rw [KeepHighestBitSet, KeepHighestBitsSet_eq_topBits 1 _
      (ranksAtLeast_subset_sixteen cs 3) (Finset.card_pos.2 hne3),
      topBits_one _ hne3, bitSum_singleton]
  have herase : clearBits (bitSum (ranksAtLeast cs 2))
      (KeepHighestBitSet (bitSum (ranksAtLeast cs 3))) =
      bitSum ((ranksAtLeast cs 2).erase ((ranksAtLeast cs 3).max' hne3)) := by
    rw [hmax3, ← bitSum_singleton,
      clearBits_bitSum _ _ (ranksAtLeast_subset_thirtytwo cs 2),
      Finset.sdiff_singleton_eq_erase]
  have hne2 : ((ranksAtLeast cs 2).erase ((ranksAtLeast cs 3).max' hne3)).Nonempty := by
    rw [Finset.nonempty_iff_ne_empty]
    intro he
    rw [herase, he] at h3
    simp [bitSum] at h3
  refine ⟨(ranksAtLeast cs 3).max' hne3, (ranksAtLeast cs 3).max'_mem hne3, hne2, ?_, ?_⟩ <;>
    (rw [EvaluateHand2, hm]
     simp only
     rw [if_neg h1, if_neg h2, if_pos h3])
  · exact hmax3
  · rw [herase]

theorem e2_flush_spec (cs : List Card) (hnd : cs.Nodup)
    (hval : ∀ c ∈ cs, validCard c) (hlen : cs.length ≤ 7)
    (hcat : (EvaluateHand2 (hand2OfCards cs)).category = Flush) :
    ev2FlushMask (hand2OfCards cs) ≠ 0 ∧
      (EvaluateHand2 (hand2OfCards cs)).master =
        KeepHighestBitsSet 5 (ev2FlushMask (hand2OfCards cs)) ∧
      (EvaluateHand2 (hand2OfCards cs)).kicker = 0 := by
  have hm := rankMasks_eq cs hnd hval hlen
  rw [EvaluateHand2, hm] at hcat
  simp only [apply_ite Strength.category] at hcat
  split_ifs at hcat with h1 h2 h3 h4 h5 h6 h7 h8
  all_goals try (simp only [StraightFlush, FourOfAKind, FullHouse, Flush, Straight,
    ThreeOfAKind, TwoPair, OnePair, HighCard] at hcat)
  all_goals try omega
  refine ⟨h4, ?_, ?_⟩ <;>
    (rw [EvaluateHand2, hm]
     simp only
     rw [if_neg h1, if_neg h2, if_neg h3, if_pos h4])

theorem e2_straight_spec (cs : List Card) (hnd : cs.Nodup)
    (hval : ∀ c ∈ cs, validCard c) (hlen : cs.length ≤ 7)
    (hcat : (EvaluateHand2 (hand2OfCards cs)).category = Straight) :
    straightMask (bitSum (ranksAtLeast cs 1)) ≠ 0 ∧
      (EvaluateHand2 (hand2OfCards cs)).master =
        KeepHighestBitSet (straightMask (bitSum (ranksAtLeast cs 1))) ∧
      (EvaluateHand2 (hand2OfCards cs)).kicker = 0 := by
  have hm := rankMasks_eq cs hnd hval hlen
  rw [EvaluateHand2, hm] at hcat
  simp only [apply_ite Strength.category] at hcat
  split_ifs at hcat with h1 h2 h3 h4 h5 h6 h7 h8
  all_goals try (simp only [StraightFlush, FourOfAKind, FullHouse, Flush, Straight,
    ThreeOfAKind, TwoPair, OnePair, HighCard] at hcat)
  all_goals try omega
  refine ⟨h5, ?_, ?_⟩ <;>
    (rw [EvaluateHand2, hm]
     simp only
     rw [if_neg h1, if_neg h2, if_neg h3, if_neg h4, if_pos h5])

theorem e2_trips_spec (cs : List Card) (hnd : cs.Nodup)
    (hval : ∀ c ∈ cs, validCard c) (hlen : cs.length ≤ 7)
    (hcat : (EvaluateHand2 (hand2OfCards cs)).category = ThreeOfAKind) :
    ranksAtLeast cs 4 = ∅ ∧
      ∃ t, ranksAtLeast cs 3 = {t} ∧ ranksAtLeast cs 2 = {t} ∧
        (EvaluateHand2 (hand2OfCards cs)).master = 2 ^ t ∧
        (EvaluateHand2 (hand2OfCards cs)).kicker =
          KeepHighestBitsSet 2 (bitSum ((ranksAtLeast cs 1).erase t)) := by
  have hm := rankMasks_eq cs hnd hval hlen
  rw [EvaluateHand2, hm] at hcat
  simp only [apply_ite Strength.category] at hcat
  split_ifs at hcat with h1 h2 h3 h4 h5 h6 h7 h8
  all_goals try (simp only [StraightFlush, FourOfAKind, FullHouse, Flush, Straight,
    ThreeOfAKind, TwoPair, OnePair, HighCard] at hcat)
  all_goals try omega
  have hne3 : (ranksAtLeast cs 3).Nonempty := by
    rw [Finset.nonempty_iff_ne_empty]
    intro he
    rw [he] at h6
    exact h6 rfl
  have hmax3 : KeepHighestBitSet (bitSum (ranksAtLeast cs 3)) =
      2 ^ ((ranksAtLeast cs 3).max' hne3) := by
    rw [KeepHighestBitSet, KeepHighestBitsSet_eq_topBits 1 _
      (ranksAtLeast_subset_sixteen cs 3) (Finset.card_pos.2 hne3),
      topBits_one _ hne3, bitSum_singleton]
  have hc0 : clearBits (bitSum (ranksAtLeast cs 2))
      (KeepHighestBitSet (bitSum (ranksAtLeast cs 3))) = 0 := by
    by_contra hne
    exact h3 ⟨h6, hne⟩
  rw [hmax3, ← bitSum_singleton,
    clearBits_bitSum _ _ (ranksAtLeast_subset_thirtytwo cs 2),
    Finset.sdiff_singleton_eq_erase, bitSum_zero_iff] at hc0
  have hmem2 : (ranksAtLeast cs 3).max' hne3 ∈ ranksAtLeast cs 2 :=
    ranksAtLeast_mono cs (by norm_num) ((ranksAtLeast cs 3).max'_mem hne3)
  have h2s : ranksAtLeast cs 2 = {(ranksAtLeast cs 3).max' hne3} := by
    apply Finset.Subset.antisymm
    · intro x hx
      rw [Finset.mem_singleton]
      by_contra hne
      exact absurd hc0 (Finset.nonempty_iff_ne_empty.1 ⟨x, Finset.mem_erase.2 ⟨hne, hx⟩⟩)
    · exact Finset.singleton_subset_iff.2 hmem2
  have h3s : ranksAtLeast cs 3 = {(ranksAtLeast cs 3).max' hne3} := by
    apply Finset.Subset.antisymm
    · intro x hx
      have := ranksAtLeast_mono cs (show 2 ≤ 3 from by norm_num) hx
      rw [h2s] at this
      exact this
    · exact Finset.singleton_subset_iff.2 ((ranksAtLeast cs 3).max'_mem hne3)
  have h4e : ranksAtLeast cs 4 = ∅ := by
    by_contra hne4
    exact h2 (bitSum_ne_zero _ (Finset.nonempty_iff_ne_empty.2 hne4))
  have hbs3 : bitSum (ranksAtLeast cs 3) = 2 ^ ((ranksAtLeast cs 3).max' hne3) := by
    conv_lhs => rw [h3s]
    rw [bitSum_singleton]
  refine ⟨h4e, (ranksAtLeast cs 3).max' hne3, h3s, h2s, ?_, ?_⟩ <;>
    (rw [EvaluateHand2, hm]
     simp only
     rw [if_neg h1, if_neg h2, if_neg h3, if_neg h4, if_neg h5, if_pos h6])
  · exact hbs3
  · rw [hbs3, ← bitSum_singleton,
      clearBits_bitSum _ _ (ranksAtLeast_subset_thirtytwo cs 1),
      Finset.sdiff_singleton_eq_erase]

theorem e2_twoPair_spec (cs : List Card) (hnd : cs.Nodup)
    (hval : ∀ c ∈ cs, validCard c) (hlen : cs.length ≤ 7)
    (hcat : (EvaluateHand2 (hand2OfCards cs)).category = TwoPair) :
    ranksAtLeast cs 3 = ∅ ∧ ranksAtLeast cs 4 = ∅ ∧
      ∃ p1 p2, p1 ∈ ranksAtLeast cs 2 ∧ p2 ∈ (ranksAtLeast cs 2).erase p1 ∧
        (EvaluateHand2 (hand2OfCards cs)).master = bitSum {p1, p2} ∧
        (EvaluateHand2 (hand2OfCards cs)).kicker =
          KeepHighestBitSet (bitSum (ranksAtLeast cs 1 \ {p1, p2})) := by
  have hm := rankMasks_eq cs hnd hval hlen
  rw [EvaluateHand2, hm] at hcat
  simp only [apply_ite Strength.category] at hcat
  split_ifs at hcat with h1 h2 h3 h4 h5 h6 h7 h8
  all_goals try (simp only [StraightFlush, FourOfAKind, FullHouse, Flush, Straight,
    ThreeOfAKind, TwoPair, OnePair, HighCard] at hcat)
  all_goals try omega
  have hne : (ranksAtLeast cs 2).Nonempty := by
    rw [Finset.nonempty_iff_ne_empty]
    intro he
    rw [he] at h7
    exact h7 rfl
  have hmax : KeepHighestBitSet (bitSum (ranksAtLeast cs 2)) =
      2 ^ ((ranksAtLeast cs 2).max' hne) := by
    rw [KeepHighestBitSet, KeepHighestBitsSet_eq_topBits 1 _
      (ranksAtLeast_subset_sixteen cs 2) (Finset.card_pos.2 hne),
      topBits_one _ hne, bitSum_singleton]
  have herase : clearBits (bitSum (ranksAtLeast cs 2))
      (KeepHighestBitSet (bitSum (ranksAtLeast cs 2))) =
      bitSum ((ranksAtLeast cs 2).erase ((ranksAtLeast cs 2).max' hne)) := by
    rw [hmax, ← bitSum_singleton,
      clearBits_bitSum _ _ (ranksAtLeast_subset_thirtytwo cs 2),
      Finset.sdiff_singleton_eq_erase]
  have hne2 : ((ranksAtLeast cs 2).erase ((ranksAtLeast cs 2).max' hne)).Nonempty := by
    rw [Finset.nonempty_iff_ne_empty]
    intro he
    rw [herase, he] at h8
    simp [bitSum] at h8
  have hmax2 : KeepHighestBitSet
      (bitSum ((ranksAtLeast cs 2).erase ((ranksAtLeast cs 2).max' hne))) =
      2 ^ (((ranksAtLeast cs 2).erase ((ranksAtLeast cs 2).max' hne)).max' hne2) := by
    rw [KeepHighestBitSet, KeepHighestBitsSet_eq_topBits 1 _
      (subset_trans (Finset.erase_subset _ _) (ranksAtLeast_subset_sixteen cs 2))
      (Finset.card_pos.2 hne2), topBits_one _ hne2, bitSum_singleton]
  have h3e : ranksAtLeast cs 3 = ∅ := by
    by_contra hne3
    exact h6 (bitSum_ne_zero _ (Finset.nonempty_iff_ne_empty.2 hne3))
  have h4e : ranksAtLeast cs 4 = ∅ := by
    by_contra hne4
    exact h2 (bitSum_ne_zero _ (Finset.nonempty_iff_ne_empty.2 hne4))
  refine ⟨h3e, h4e, (ranksAtLeast cs 2).max' hne,
    ((ranksAtLeast cs 2).erase ((ranksAtLeast cs 2).max' hne)).max' hne2,
    (ranksAtLeast cs 2).max'_mem hne,
    ((ranksAtLeast cs 2).erase ((ranksAtLeast cs 2).max' hne)).max'_mem hne2, ?_, ?_⟩ <;>
    (rw [EvaluateHand2, hm]
     simp only
     rw [if_neg h1, if_neg h2, if_neg h3, if_neg h4, if_neg h5, if_neg h6, if_pos h7,
       if_pos h8]
     rw [herase, hmax2, hmax, ← bitSum_singleton ((ranksAtLeast cs 2).max' hne),
       ← bitSum_singleton (((ranksAtLeast cs 2).erase
         ((ranksAtLeast cs 2).max' hne)).max' hne2),
       lor_bitSum, ← Finset.insert_eq])
  rw [clearBits_bitSum _ _ (ranksAtLeast_subset_thirtytwo cs 1)]

theorem khbs_popcount (k : Nat) (S : Finset Nat) (hS : S ⊆ Finset.range 13)
    (hk : k ≤ S.card) :
    popcount (KeepHighestBitsSet k (bitSum S)) = k ∧
      KeepHighestBitsSet k (bitSum S) < 2 ^ 13 := by
  have hS16 : S ⊆ Finset.range 16 :=
    subset_trans hS (Finset.range_subset.2 (by norm_num))
  have htop13 : topBits k S ⊆ Finset.range 13 := subset_trans (topBits_subset k S) hS
  rw [KeepHighestBitsSet_eq_topBits k S hS16 hk]
  refine ⟨?_, bitSum_lt _ 13 htop13⟩
  rw [popcount_bitSum _ (subset_trans htop13 (Finset.range_subset.2 (by norm_num))),
    topBits_card k S hk]

theorem popcount_two_pow_13 (t : Nat) (ht : t < 13) :
    popcount (2 ^ t) = 1 ∧ (2 : Nat) ^ t < 2 ^ 13 := by
  constructor
  · rw [← bitSum_singleton, popcount_bitSum _ (by
      intro i hi
      rw [Finset.mem_singleton] at hi
      rw [Finset.mem_range]
      omega), Finset.card_singleton]
  · exact Nat.pow_lt_pow_right (by norm_num) ht

theorem strengthValue_fields (st : Strength) (hc : st.category ≤ 8)
    (hm : st.master < 2 ^ 13) (hk : st.kicker < 2 ^ 13) :
    strengthValue st = st.category * 2 ^ 26 + st.master * 2 ^ 13 + st.kicker ∧
      strengthValue st < 2 ^ 30 := by
  have hmk : st.master * 2 ^ 13 + st.kicker < 2 ^ 26 := by
    have h1 : st.master * 2 ^ 13 ≤ (2 ^ 13 - 1) * 2 ^ 13 :=
      Nat.mul_le_mul_right _ (by omega)
    have h2 : ((2 : Nat) ^ 13 - 1) * 2 ^ 13 = 2 ^ 26 - 2 ^ 13 := by norm_num
    have h3 : (2 : Nat) ^ 13 < 2 ^ 26 := by norm_num
    omega
  have hlow : st.master <<< 13 ||| st.kicker = st.master * 2 ^ 13 + st.kicker := by
    rw [Nat.shiftLeft_eq, Nat.mul_comm st.master (2 ^ 13),
      ← Nat.mul_add_lt_is_or hk st.master, Nat.mul_comm (2 ^ 13) st.master]
  have hall : st.category <<< 26 ||| st.master <<< 13 ||| st.kicker =
      st.category * 2 ^ 26 + (st.master * 2 ^ 13 + st.kicker) := by
    rw [Nat.lor_assoc, hlow, Nat.shiftLeft_eq, Nat.mul_comm st.category (2 ^ 26),
      ← Nat.mul_add_lt_is_or hmk st.category, Nat.mul_comm (2 ^ 26) st.category]
  have hbound : st.category * 2 ^ 26 + (st.master * 2 ^ 13 + st.kicker) < 2 ^ 30 := by
    have h1 : st.category * 2 ^ 26 ≤ 8 * 2 ^ 26 := Nat.mul_le_mul_right _ hc
    have h2 : (8 : Nat) * 2 ^ 26 = 2 ^ 29 := by norm_num
    have h3 : (2 : Nat) ^ 29 + 2 ^ 26 < 2 ^ 30 := by norm_num
    omega
  rw [strengthValue, hall, Nat.mod_eq_of_lt (by
    have : (2 : Nat) ^ 30 < 2 ^ 32 := by norm_num
    omega)]
  omega

theorem straightMask_lt13 (x : Nat) (hx : x < 2 ^ 13) : straightMask x < 2 ^ 13 := by
  have hx8 : x < 8192 := by simpa using hx
  have h := straightMask_lt x hx8
  simpa using h

/-- C10.  For every well-formed 5-7 card hand, the `HandStrength`
returned by `EvaluateHand2` keeps a fixed per-category number of set
bits in its master and kicker fields (straight flush and straight:
1 master bit, zero kicker; quads and full house: 1 and 1; flush and
high card: 5 master bits, zero kicker; trips: 1 and 2; two pair:
2 and 1; one pair: 1 and 3), both fields fit in 13 bits, and the
packed value decomposes as `category * 2^26 + master * 2^13 + kicker`
below `2^30`, so the three fields never overlap. -/
theorem strength_bit_counts (cs : List Card) (hnd : cs.Nodup)
    (hval : ∀ c ∈ cs, validCard c) (hlen5 : 5 ≤ cs.length) (hlen7 : cs.length ≤ 7) :
    (EvaluateHand2 (hand2OfCards cs)).master < 2 ^ 13 ∧
    (EvaluateHand2 (hand2OfCards cs)).kicker < 2 ^ 13 ∧
    strengthValue (EvaluateHand2 (hand2OfCards cs)) =
      (EvaluateHand2 (hand2OfCards cs)).category * 2 ^ 26 +
        (EvaluateHand2 (hand2OfCards cs)).master * 2 ^ 13 +
        (EvaluateHand2 (hand2OfCards cs)).kicker ∧
    strengthValue (EvaluateHand2 (hand2OfCards cs)) < 2 ^ 30 ∧
    ((EvaluateHand2 (hand2OfCards cs)).category = StraightFlush ∨
        (EvaluateHand2 (hand2OfCards cs)).category = Straight →
      popcount (EvaluateHand2 (hand2OfCards cs)).master = 1 ∧
        (EvaluateHand2 (hand2OfCards cs)).kicker = 0) ∧
    ((EvaluateHand2 (hand2OfCards cs)).category = FourOfAKind ∨
        (EvaluateHand2 (hand2OfCards cs)).category = FullHouse →
      popcount (EvaluateHand2 (hand2OfCards cs)).master = 1 ∧
        popcount (EvaluateHand2 (hand2OfCards cs)).kicker = 1) ∧
    ((EvaluateHand2 (hand2OfCards cs)).category = Flush ∨
        (EvaluateHand2 (hand2OfCards cs)).category = HighCard →
      popcount (EvaluateHand2 (hand2OfCards cs)).master = 5 ∧
        (EvaluateHand2 (hand2OfCards cs)).kicker = 0) ∧
    ((EvaluateHand2 (hand2OfCards cs)).category = ThreeOfAKind →
      popcount (EvaluateHand2 (hand2OfCards cs)).master = 1 ∧
        popcount (EvaluateHand2 (hand2OfCards cs)).kicker = 2) ∧
    ((EvaluateHand2 (hand2OfCards cs)).category = TwoPair →
      popcount (EvaluateHand2 (hand2OfCards cs)).master = 2 ∧
        popcount (EvaluateHand2 (hand2OfCards cs)).kicker = 1) ∧
    ((EvaluateHand2 (hand2OfCards cs)).category = OnePair →
      popcount (EvaluateHand2 (hand2OfCards cs)).master = 1 ∧
        popcount (EvaluateHand2 (hand2OfCards cs)).kicker = 3) := by
  have hsum := length_eq_sum_atLeast cs hnd hval
  have hm21 : ranksAtLeast cs 2 ⊆ ranksAtLeast cs 1 := ranksAtLeast_mono cs (by norm_num)
  have hm32 : ranksAtLeast cs 3 ⊆ ranksAtLeast cs 2 := ranksAtLeast_mono cs (by norm_num)
  have hm43 : ranksAtLeast cs 4 ⊆ ranksAtLeast cs 3 := ranksAtLeast_mono cs (by norm_num)
  have hc21 := Finset.card_le_card hm21
  have hc32 := Finset.card_le_card hm32
  have hc43 := Finset.card_le_card hm43
  have hr64 : ∀ k, ranksAtLeast cs k ⊆ Finset.range 64 := fun k =>
    subset_trans (ranksAtLeast_subset_range cs k) (Finset.range_subset.2 (by norm_num))
  have hsf : (EvaluateHand2 (hand2OfCards cs)).category = StraightFlush →
      popcount (EvaluateHand2 (hand2OfCards cs)).master = 1 ∧
        (EvaluateHand2 (hand2OfCards cs)).master < 2 ^ 13 ∧
        (EvaluateHand2 (hand2OfCards cs)).kicker = 0 := by
    intro hcat
    obtain ⟨hne, hma, hki⟩ := e2_sf_spec cs hnd hval hlen7 hcat
    have hsm := straightMask_lt13 _ (ev2FlushMask_lt cs hnd hval hlen7)
    have hk1 := KeepHighestBitsSet_one _ hne hsm
    rw [hma, KeepHighestBitSet]
    exact ⟨hk1.1, hk1.2, hki⟩
  have hst : (EvaluateHand2 (hand2OfCards cs)).category = Straight →
      popcount (EvaluateHand2 (hand2OfCards cs)).master = 1 ∧
        (EvaluateHand2 (hand2OfCards cs)).master < 2 ^ 13 ∧
        (EvaluateHand2 (hand2OfCards cs)).kicker = 0 := by
    intro hcat
    obtain ⟨hne, hma, hki⟩ := e2_straight_spec cs hnd hval hlen7 hcat
    have hsm := straightMask_lt13 _ (bitSum_lt _ 13 (ranksAtLeast_subset_range cs 1))
    have hk1 := KeepHighestBitsSet_one _ hne hsm
    rw [hma, KeepHighestBitSet]
    exact ⟨hk1.1, hk1.2, hki⟩
  have hq : (EvaluateHand2 (hand2OfCards cs)).category = FourOfAKind →
      popcount (EvaluateHand2 (hand2OfCards cs)).master = 1 ∧
        (EvaluateHand2 (hand2OfCards cs)).master < 2 ^ 13 ∧
        popcount (EvaluateHand2 (hand2OfCards cs)).kicker = 1 ∧
        (EvaluateHand2 (hand2OfCards cs)).kicker < 2 ^ 13 := by
    intro hcat
    obtain ⟨hne4, hma, hki⟩ := e2_quads_spec cs hnd hval hlen7 hcat
    have hpos4 := Finset.card_pos.2 hne4
    have hc4 : (ranksAtLeast cs 4).card = 1 := by omega
    have hsub41 : ranksAtLeast cs 4 ⊆ ranksAtLeast cs 1 :=
      subset_trans hm43 (subset_trans hm32 hm21)
    have hcdiff : (ranksAtLeast cs 1 \ ranksAtLeast cs 4).card =
        (ranksAtLeast cs 1).card - 1 := by
      rw [Finset.card_sdiff hsub41, hc4]
    have hk := khbs_popcount 1 (ranksAtLeast cs 1 \ ranksAtLeast cs 4)
      (subset_trans (Finset.sdiff_subset) (ranksAtLeast_subset_range cs 1)) (by omega)
    rw [hma, hki, KeepHighestBitSet]
    refine ⟨?_, bitSum_lt _ 13 (ranksAtLeast_subset_range cs 4), hk.1, hk.2⟩
    rw [popcount_bitSum _ (hr64 4), hc4]
  have hfh : (EvaluateHand2 (hand2OfCards cs)).category = FullHouse →
      popcount (EvaluateHand2 (hand2OfCards cs)).master = 1 ∧
        (EvaluateHand2 (hand2OfCards cs)).master < 2 ^ 13 ∧
        popcount (EvaluateHand2 (hand2OfCards cs)).kicker = 1 ∧
        (EvaluateHand2 (hand2OfCards cs)).kicker < 2 ^ 13 := by
    intro hcat
    obtain ⟨t, htmem, hne2, hma, hki⟩ := e2_fh_spec cs hnd hval hlen7 hcat
    have ht13 : t < 13 := Finset.mem_range.1 (ranksAtLeast_subset_range cs 3 htmem)
    have hk := khbs_popcount 1 ((ranksAtLeast cs 2).erase t)
      (subset_trans (Finset.erase_subset _ _) (ranksAtLeast_subset_range cs 2))
      (Finset.card_pos.2 hne2)
    have hp := popcount_two_pow_13 t ht13
    rw [hma, hki, KeepHighestBitSet]
    exact ⟨hp.1, hp.2, hk.1, hk.2⟩
  have hfl : (EvaluateHand2 (hand2OfCards cs)).category = Flush →
      popcount (EvaluateHand2 (hand2OfCards cs)).master = 5 ∧
        (EvaluateHand2 (hand2OfCards cs)).master < 2 ^ 13 ∧
        (EvaluateHand2 (hand2OfCards cs)).kicker = 0 := by
    intro hcat
    obtain ⟨hFne, hma, hki⟩ := e2_flush_spec cs hnd hval hlen7 hcat
    rcases ev2FlushMask_cases cs hnd hval hlen7 with h0 | ⟨s, hs4, h5c, hFs⟩
    · exact absurd h0 hFne
    · have hcard : 5 ≤ (suitRanks cs s).card := by
        rw [card_suitRanks cs hnd hval s]
        exact h5c
      have hk := khbs_popcount 5 (suitRanks cs s) (Finset.filter_subset _ _) hcard
      rw [hma, hFs]
      exact ⟨hk.1, hk.2, hki⟩
  have h3k : (EvaluateHand2 (hand2OfCards cs)).category = ThreeOfAKind →
      popcount (EvaluateHand2 (hand2OfCards cs)).master = 1 ∧
        (EvaluateHand2 (hand2OfCards cs)).master < 2 ^ 13 ∧
        popcount (EvaluateHand2 (hand2OfCards cs)).kicker = 2 ∧
        (EvaluateHand2 (hand2OfCards cs)).kicker < 2 ^ 13 := by
    intro hcat
    obtain ⟨h4e, t, h3s, h2s, hma, hki⟩ := e2_trips_spec cs hnd hval hlen7 hcat
    have htmem : t ∈ ranksAtLeast cs 2 := h2s ▸ Finset.mem_singleton_self t
    have ht13 : t < 13 := Finset.mem_range.1 (ranksAtLeast_subset_range cs 2 htmem)
    rw [h2s, Finset.card_singleton] at hsum
    rw [h3s, Finset.card_singleton] at hsum
    rw [h4e, Finset.card_empty] at hsum
    have htmem1 : t ∈ ranksAtLeast cs 1 := hm21 htmem
    have hcerase : ((ranksAtLeast cs 1).erase t).card = (ranksAtLeast cs 1).card - 1 :=
      Finset.card_erase_of_mem htmem1
    have hk := khbs_popcount 2 ((ranksAtLeast cs 1).erase t)
      (subset_trans (Finset.erase_subset _ _) (ranksAtLeast_subset_range cs 1)) (by omega)
    have hp := popcount_two_pow_13 t ht13
    rw [hma, hki]
    exact ⟨hp.1, hp.2, hk.1, hk.2⟩
  have h2p : (EvaluateHand2 (hand2OfCards cs)).category = TwoPair →
      popcount (EvaluateHand2 (hand2OfCards cs)).master = 2 ∧
        (EvaluateHand2 (hand2OfCards cs)).master < 2 ^ 13 ∧
        popcount (EvaluateHand2 (hand2OfCards cs)).kicker = 1 ∧
        (EvaluateHand2 (hand2OfCards cs)).kicker < 2 ^ 13 := by
    intro hcat
    obtain ⟨h3e, h4e, p1, p2, hp1, hp2, hma, hki⟩ := e2_twoPair_spec cs hnd hval hlen7 hcat
    obtain ⟨hp2ne, hp2mem⟩ := Finset.mem_erase.1 hp2
    have hpair_sub : ({p1, p2} : Finset Nat) ⊆ ranksAtLeast cs 2 := by
      intro x hx
      rcases Finset.mem_insert.1 hx with h | h
      · exact h ▸ hp1
      · exact (Finset.mem_singleton.1 h) ▸ hp2mem
    have hpair_card : ({p1, p2} : Finset Nat).card = 2 := by
      rw [Finset.card_insert_of_not_mem (by
        rw [Finset.mem_singleton]
        exact fun h => hp2ne h.symm), Finset.card_singleton]
    rw [h3e, Finset.card_empty] at hsum
    rw [h4e, Finset.card_empty] at hsum
    have hsub1 : ({p1, p2} : Finset Nat) ⊆ ranksAtLeast cs 1 :=
      subset_trans hpair_sub hm21
    have hcdiff : (ranksAtLeast cs 1 \ {p1, p2}).card =
        (ranksAtLeast cs 1).card - 2 := by
      rw [Finset.card_sdiff hsub1, hpair_card]
    have hk := khbs_popcount 1 (ranksAtLeast cs 1 \ {p1, p2})
      (subset_trans (Finset.sdiff_subset) (ranksAtLeast_subset_range cs 1)) (by omega)
    rw [hma, hki, KeepHighestBitSet]
    refine ⟨?_, ?_, hk.1, hk.2⟩
    · rw [popcount_bitSum _ (subset_trans hpair_sub (hr64 2)), hpair_card]
    · exact bitSum_lt _ 13 (subset_trans hpair_sub (ranksAtLeast_subset_range cs 2))
  have h1p : (EvaluateHand2 (hand2OfCards cs)).category = OnePair →
      popcount (EvaluateHand2 (hand2OfCards cs)).master = 1 ∧
        (EvaluateHand2 (hand2OfCards cs)).master < 2 ^ 13 ∧
        popcount (EvaluateHand2 (hand2OfCards cs)).kicker = 3 ∧
        (EvaluateHand2 (hand2OfCards cs)).kicker < 2 ^ 13 := by
    intro hcat
    obtain ⟨p, h2s, h3e, h4e, hma, hki⟩ := e2_onePair_spec cs hnd hval hlen7 hcat
    have hpmem : p ∈ ranksAtLeast cs 2 := h2s ▸ Finset.mem_singleton_self p
    have hp13 : p < 13 := Finset.mem_range.1 (ranksAtLeast_subset_range cs 2 hpmem)
    rw [h2s, Finset.card_singleton] at hsum
    rw [h3e, Finset.card_empty] at hsum
    rw [h4e, Finset.card_empty] at hsum
    have hpmem1 : p ∈ ranksAtLeast cs 1 := hm21 hpmem
    have hcerase : ((ranksAtLeast cs 1).erase p).card = (ranksAtLeast cs 1).card - 1 :=
      Finset.card_erase_of_mem hpmem1
    have hk := khbs_popcount 3 ((ranksAtLeast cs 1).erase p)
      (subset_trans (Finset.erase_subset _ _) (ranksAtLeast_subset_range cs 1)) (by omega)
    have hp := popcount_two_pow_13 p hp13
    rw [hma, hki]
    exact ⟨hp.1, hp.2, hk.1, hk.2⟩
  have hhc : (EvaluateHand2 (hand2OfCards cs)).category = HighCard →
      popcount (EvaluateHand2 (hand2OfCards cs)).master = 5 ∧
        (EvaluateHand2 (hand2OfCards cs)).master < 2 ^ 13 ∧
        (EvaluateHand2 (hand2OfCards cs)).kicker = 0 := by
    intro hcat
    obtain ⟨h2e, hma, hki⟩ := e2_highCard_spec cs hnd hval hlen7 hcat
    have h3e : ranksAtLeast cs 3 = ∅ :=
      Finset.subset_empty.1 (h2e ▸ hm32)
    have h4e : ranksAtLeast cs 4 = ∅ :=
      Finset.subset_empty.1 (h3e ▸ hm43)
    rw [h2e, Finset.card_empty] at hsum
    rw [h3e, Finset.card_empty] at hsum
    rw [h4e, Finset.card_empty] at hsum
    have hk := khbs_popcount 5 (ranksAtLeast cs 1) (ranksAtLeast_subset_range cs 1) (by omega)
    rw [hma, hki]
    exact ⟨hk.1, hk.2, rfl⟩
  have hcases := e2_cat_cases cs hnd hval hlen7
  have hbounds : (EvaluateHand2 (hand2OfCards cs)).master < 2 ^ 13 ∧
      (EvaluateHand2 (hand2OfCards cs)).kicker < 2 ^ 13 := by
    rcases hcases with h | h | h | h | h | h | h | h | h
    · exact ⟨(hsf h).2.1, by rw [(hsf h).2.2]; norm_num⟩
    · exact ⟨(hq h).2.1, (hq h).2.2.2⟩
    · exact ⟨(hfh h).2.1, (hfh h).2.2.2⟩
    · exact ⟨(hfl h).2.1, by rw [(hfl h).2.2]; norm_num⟩
    · exact ⟨(hst h).2.1, by rw [(hst h).2.2]; norm_num⟩
    · exact ⟨(h3k h).2.1, (h3k h).2.2.2⟩
    · exact ⟨(h2p h).2.1, (h2p h).2.2.2⟩
    · exact ⟨(h1p h).2.1, (h1p h).2.2.2⟩
    · exact ⟨(hhc h).2.1, by rw [(hhc h).2.2]; norm_num⟩
  have hcatle : (EvaluateHand2 (hand2OfCards cs)).category ≤ 8 := by
    rcases hcases with h | h | h | h | h | h | h | h | h <;>
      (rw [h]
       first
        | exact Nat.le_refl 8
        | (simp only [StraightFlush, FourOfAKind, FullHouse, Flush, Straight,
            ThreeOfAKind, TwoPair, OnePair, HighCard]
           omega))
  have hsv := strengthValue_fields _ hcatle hbounds.1 hbounds.2
  refine ⟨hbounds.1, hbounds.2, hsv.1, hsv.2, ?_, ?_, ?_, ?_, ?_, ?_⟩
  · rintro (h | h)
    · exact ⟨(hsf h).1, (hsf h).2.2⟩
    · exact ⟨(hst h).1, (hst h).2.2⟩
  · rintro (h | h)
    · exact ⟨(hq h).1, (hq h).2.2.1⟩
    · exact ⟨(hfh h).1, (hfh h).2.2.1⟩
  · rintro (h | h)
    · exact ⟨(hfl h).1, (hfl h).2.2⟩
    · exact ⟨(hhc h).1, (hhc h).2.2⟩
  · intro h
    exact ⟨(h3k h).1, (h3k h).2.2.1⟩
  · intro h
    exact ⟨(h2p h).1, (h2p h).2.2.1⟩
  · intro h
    exact ⟨(h1p h).1, (h1p h).2.2.1⟩

/-- Closed witness for C10 at the 7-card hand 9C TC JC QC KC 2S 7S. -/
theorem strength_bit_counts_witness :
    (EvaluateHand2 (hand2OfCards sfPlusSpades)).master < 2 ^ 13 ∧
    (EvaluateHand2 (hand2OfCards sfPlusSpades)).kicker < 2 ^ 13 ∧
    strengthValue (EvaluateHand2 (hand2OfCards sfPlusSpades)) =
      (EvaluateHand2 (hand2OfCards sfPlusSpades)).category * 2 ^ 26 +
        (EvaluateHand2 (hand2OfCards sfPlusSpades)).master * 2 ^ 13 +
        (EvaluateHand2 (hand2OfCards sfPlusSpades)).kicker ∧
    strengthValue (EvaluateHand2 (hand2OfCards sfPlusSpades)) < 2 ^ 30 ∧
    ((EvaluateHand2 (hand2OfCards sfPlusSpades)).category = StraightFlush ∨
        (EvaluateHand2 (hand2OfCards sfPlusSpades)).category = Straight →
      popcount (EvaluateHand2 (hand2OfCards sfPlusSpades)).master = 1 ∧
        (EvaluateHand2 (hand2OfCards sfPlusSpades)).kicker = 0) ∧
    ((EvaluateHand2 (hand2OfCards sfPlusSpades)).category = FourOfAKind ∨
        (EvaluateHand2 (hand2OfCards sfPlusSpades)).category = FullHouse →
      popcount (EvaluateHand2 (hand2OfCards sfPlusSpades)).master = 1 ∧
        popcount (EvaluateHand2 (hand2OfCards sfPlusSpades)).kicker = 1) ∧
    ((EvaluateHand2 (hand2OfCards sfPlusSpades)).category = Flush ∨
        (EvaluateHand2 (hand2OfCards sfPlusSpades)).category = HighCard →
      popcount (EvaluateHand2 (hand2OfCards sfPlusSpades)).master = 5 ∧
        (EvaluateHand2 (hand2OfCards sfPlusSpades)).kicker = 0) ∧
    ((EvaluateHand2 (hand2OfCards sfPlusSpades)).category = ThreeOfAKind →
      popcount (EvaluateHand2 (hand2OfCards sfPlusSpades)).master = 1 ∧
        popcount (EvaluateHand2 (hand2OfCards sfPlusSpades)).kicker = 2) ∧
    ((EvaluateHand2 (hand2OfCards sfPlusSpades)).category = TwoPair →
      popcount (EvaluateHand2 (hand2OfCards sfPlusSpades)).master = 2 ∧
        popcount (EvaluateHand2 (hand2OfCards sfPlusSpades)).kicker = 1) ∧
    ((EvaluateHand2 (hand2OfCards sfPlusSpades)).category = OnePair →
      popcount (EvaluateHand2 (hand2OfCards sfPlusSpades)).master = 1 ∧
        popcount (EvaluateHand2 (hand2OfCards sfPlusSpades)).kicker = 3) :=
  strength_bit_counts sfPlusSpades (by decide) (by decide) (by decide) (by decide)

end Holdem
